import Mathlib

/-!
# openpathresolver — shallow embedding and verification

The repository exposes a path-template engine: a schema of named path
nodes whose templates reference typed placeholders, with bidirectional
operations between field maps and path strings (`get_path`, `get_fields`,
`get_key`, `find_paths`, `get_workspace`, `create_workspace`).

The repository ships only the Python binding's tests, examples and a
packaging script; the engine itself (a native core) is not part of the
source tree.  Every definition below is therefore modelled from the
specification's wording, cross-checked against the behaviour pinned down
by the binding tests.  Machine strings are modelled as `List Char`
internally; regex fragments are modelled by the character-class
repetitions that the specification assigns to the resolvers
(`\d{N,}` for `Integer(N)`, `\w+` / `\w+?` for the `String` resolver
patterns exercised by the spec and tests, and `(.+?)` for extra fields),
including their greedy/lazy backtracking order.
-/

namespace OPR


/-- Modelled from the spec: `Template Value` is the tagged union
`Integer(i64) | String(text)`. -/
inductive TemplateValue
  | int (i : Int)
  | str (s : String)
deriving DecidableEq, Repr


/-- Modelled from the spec: the structured error kinds of §4.10 that the
resolver calls can produce. -/
inductive Err
  | unknownKey (k : String)
  | missingField (name : String)
  | typeMismatch (name : String)
  | formatError (name : String)
  | parseError (name : String)
  | noMatch
  | ambiguousMatch (name : String)
  | configError
deriving DecidableEq, Repr


instance {ε α : Type} [DecidableEq ε] [DecidableEq α] : DecidableEq (Except ε α) :=
  fun a b =>
  match a, b with
  | .error e, .error f =>
      if h : e = f then .isTrue (by rw [h])
      else .isFalse (by intro hh; cases hh; exact h rfl)
  | .error _, .ok _ => .isFalse (by intro h; cases h)
  | .ok _, .error _ => .isFalse (by intro h; cases h)
  | .ok a, .ok b =>
      if h : a = b then .isTrue (by rw [h])
      else .isFalse (by intro hh; cases hh; exact h rfl)


/-- Character classes appearing in the resolvers' match regexes:
`\w`, `\d` and `.`. -/
inductive CharClass
  | word
  | digit
  | any
deriving DecidableEq, Repr


/-- Membership of a character in a class (`\w` is alphanumeric or
underscore, `\d` a decimal digit, `.` anything). -/
def CharClass.mem : CharClass → Char → Bool
  | .word, c => c.isAlphanum || c = '_'
  | .digit, c => c.isDigit
  | .any, _ => true


/-- Modelled from the spec: an unanchored regex fragment of the shape
`cls{min,}` (greedy) or `cls{min,}?` (lazy).  This covers every fragment
the specification assigns: `\d{N,}` for `Integer(N)`, the `\w+` / `\w+?`
string-resolver patterns of the spec and tests, and `(.+?)` for extra
fields. -/
structure Frag where
  cls : CharClass
  minRep : Nat
  lazyRep : Bool
deriving DecidableEq, Repr


/-- A string fully matches the fragment `cls{min,}` when all of its
characters are in the class and it is long enough. -/
def Frag.accepts (f : Frag) (cs : List Char) : Bool :=
  cs.all (f.cls.mem ·) && f.minRep ≤ cs.length


/-- Modelled from the spec: placeholder resolvers, a closed variant
`Integer(width) | String(regex)`.  The `String` resolver's regex is
modelled by a `Frag`. -/
inductive Resolver
  | integerResolver (width : Nat)
  | stringResolver (f : Frag)
deriving DecidableEq, Repr


/-! ### Decimal formatting and parsing for `Integer(N)` -/

/-- Digit value to character, `0 ↦ '0'`, …, `9 ↦ '9'`. -/
def digitChar (d : Nat) : Char := Char.ofNat (48 + d)


/-- Character to digit value. -/
def charToDigit (c : Char) : Nat := c.toNat - 48


/-- Little-endian decimal digits of `n` as characters, with explicit fuel
so that the definition reduces in the kernel. -/
def natCharsAux : Nat → Nat → List Char
  | 0, _ => []
  | _ + 1, 0 => []
  | fuel + 1, n + 1 => digitChar ((n + 1) % 10) :: natCharsAux fuel ((n + 1) / 10)


/-- The decimal representation of `n` (most significant digit first). -/
def natChars (n : Nat) : List Char :=
  if n = 0 then ['0'] else (natCharsAux n n).reverse


/-- The decimal digits of `n` left-padded with `'0'` to at least
`width` characters. -/
def padChars (width : Nat) (n : Nat) : List Char :=
  List.replicate (width - (natChars n).length) '0' ++ natChars n


/-- Numeric value of a string of decimal digit characters. -/
def charsToNat (cs : List Char) : Nat :=
  cs.foldl (fun acc c => 10 * acc + charToDigit c) 0


/-- Modelled from the spec: `format` of a resolver (§4.1/§4.4).
`Integer(N)` formats a non-negative integer as its decimal digits
left-padded with `0` to at least `N` characters; negative integers are a
`FormatError`, and a non-integer value is a `TypeMismatch`.  `String(R)`
formats a string that fully matches `R` and rejects anything else. -/
def Resolver.format (name : String) : Resolver → TemplateValue → Except Err (List Char)
  | .integerResolver width, .int i =>
      if i < 0 then .error (.formatError name) else .ok (padChars width i.toNat)
  | .integerResolver _, .str _ => .error (.typeMismatch name)
  | .stringResolver f, .str s =>
      if f.accepts s.data then .ok s.data else .error (.formatError name)
  | .stringResolver _, .int _ => .error (.typeMismatch name)


/-- Modelled from the spec: `parse` of a resolver (§4.1).  `Integer(N)`
requires a run of digits of length ≥ N with no other characters (hence no
sign) and yields the integer; `String(R)` yields the input when it fully
matches `R`. -/
def Resolver.parse (name : String) : Resolver → List Char → Except Err TemplateValue
  | .integerResolver width, cs =>
      if cs ≠ [] ∧ cs.all (·.isDigit) ∧ width ≤ cs.length then
        .ok (.int (charsToNat cs))
      else .error (.parseError name)
  | .stringResolver f, cs =>
      if f.accepts cs then .ok (.str ⟨cs⟩) else .error (.parseError name)


/-! ### Templates, schema and `get_path` -/

/-- A parsed template atom: a literal character or a `{name}` placeholder
reference.  (The spec's "segments" are runs of these; working at the
character level keeps the slash-splitting used by `find_paths` and
`get_workspace` exact.) -/
inductive TAtom
  | chr (c : Char)
  | ph (name : String)
deriving DecidableEq, Repr


/-- A word character, as in the template grammar `{name}` where `name`
is a non-empty sequence of word characters. -/
def wordChar (c : Char) : Bool := c.isAlphanum || c = '_'


/-- Modelled from the spec: the template parser (§4.2, §6).  Scans for
balanced `{name}` spans; braces are not escapable; a stray brace or an
empty/non-word name is rejected. -/
def scanTF : Nat → List Char → Option (List TAtom)
  | _, [] => some []
  | 0, _ :: _ => none
  | fuel + 1, c :: rest =>
    if c = '{' then
      let name := rest.takeWhile (fun d => decide (d ≠ '}'))
      match rest.dropWhile (fun d => decide (d ≠ '}')) with
      | [] => none
      | _ :: rest2 =>
          if name ≠ [] ∧ name.all wordChar then
            (scanTF fuel rest2).map (TAtom.ph ⟨name⟩ :: ·)
          else none
    else if c = '}' then none
    else (scanTF fuel rest).map (TAtom.chr c :: ·)


/-- Parse a template string into its atom list. -/
def scanT (s : String) : Option (List TAtom) := scanTF s.data.length s.data


/-- Modelled from the spec: the opaque permission enum. -/
inductive Permission
  | readOnly
  | readWrite
  | inherit
deriving DecidableEq, Repr


/-- Modelled from the spec: the opaque owner enum. -/
inductive Owner
  | root
  | project
  | user
  | inherit
deriving DecidableEq, Repr


/-- Modelled from the spec: the path-type enum. -/
inductive PathType
  | directory
  | file
  | fileTemplate
deriving DecidableEq, Repr


/-- Modelled from the spec: a `PathItem` of the schema (§3). -/
structure PathItem where
  key : String
  template : String
  parent : Option String
  permission : Permission
  owner : Owner
  pathType : PathType
  deferred : Bool
  metadata : List (String × String)
deriving DecidableEq, Repr


/-- Modelled from the spec: a `Config` is a mapping
`placeholder_name → Resolver` plus a list of `PathItem`s. -/
structure Config where
  resolvers : List (String × Resolver)
  items : List PathItem
deriving DecidableEq, Repr


/-- Resolver registered for a placeholder name, if any. -/
def lookupResolver (cfg : Config) (name : String) : Option Resolver :=
  (cfg.resolvers.find? (fun p => p.1 == name)).map (·.2)


/-- The schema node with the given key, if any (first in declaration
order). -/
def lookupItem (cfg : Config) (key : String) : Option PathItem :=
  cfg.items.find? (fun it => it.key == key)


/-- Field-map lookup (field maps are association lists). -/
def lookupField (fields : List (String × TemplateValue)) (n : String) :
    Option TemplateValue :=
  (fields.find? (fun p => p.1 == n)).map (·.2)


/-- Modelled from the spec: the chain of a node is the list from its
forest root to the node inclusive, obtained by following `parent` keys.
Fuel bounds the walk; a missing parent or a cycle deeper than the schema
exhausts it and yields `none` (a configuration error). -/
def chainF (cfg : Config) : Nat → PathItem → Option (List PathItem)
  | 0, _ => none
  | fuel + 1, it =>
    match it.parent with
    | none => some [it]
    | some p =>
      match lookupItem cfg p with
      | none => none
      | some pit => (chainF cfg fuel pit).map (· ++ [it])


/-- The chain of a node, with fuel set to the schema size. -/
def chain (cfg : Config) (it : PathItem) : Option (List PathItem) :=
  chainF cfg cfg.items.length it


/-- The slash atom separating chained templates. -/
def slashA : TAtom := TAtom.chr '/'


/-- Modelled from the spec: the full template of a chain is the
concatenation of its templates joined with `/`, where empty templates
contribute nothing (no extra `/`). -/
def joinT : List (List TAtom) → List TAtom
  | [] => []
  | l :: ls =>
    match joinT ls with
    | [] => l
    | rest => if l = [] then rest else l ++ slashA :: rest


/-- Atoms of a chain's full template. -/
def chainAtoms (ch : List PathItem) : Option (List TAtom) :=
  (ch.mapM (fun it => scanT it.template)).map joinT


/-- Modelled from the spec: formatting one field value (§4.4 step 4).
A registered resolver formats the value; without a resolver the value
must be a string and is inserted literally. -/
def formatValue (cfg : Config) (n : String) (v : TemplateValue) :
    Except Err (List Char) :=
  match lookupResolver cfg n with
  | some r => r.format n v
  | none =>
    match v with
    | .str s => .ok s.data
    | .int _ => .error (.typeMismatch n)


/-- Modelled from the spec: render an atom stream against a field map
(§4.4 steps 3–5), left to right: a placeholder missing from the map is a
`MissingField`, otherwise its value is formatted and inserted. -/
def renderAtoms (cfg : Config) (fields : List (String × TemplateValue)) :
    List TAtom → Except Err (List Char)
  | [] => .ok []
  | .chr c :: rest => (renderAtoms cfg fields rest).map (c :: ·)
  | .ph n :: rest =>
    match lookupField fields n with
    | none => .error (.missingField n)
    | some v =>
      match formatValue cfg n v with
      | .error e => .error e
      | .ok s => (renderAtoms cfg fields rest).map (s ++ ·)


/-- Convenience: the full-template atoms of the node named `key`. -/
def nodeAtoms (cfg : Config) (key : String) : Option (List TAtom) :=
  match lookupItem cfg key with
  | none => none
  | some it =>
    match chain cfg it with
    | none => none
    | some ch => chainAtoms ch


/-- Modelled from the spec: `get_path(config, key, fields)` (§4.4).
Resolves the chain of the node named `key` (error `UnknownKey` if
missing), concatenates the chain's templates, renders each segment
against `fields` and returns the concatenation as a path string. -/
def get_path (cfg : Config) (key : String)
    (fields : List (String × TemplateValue)) : Except Err String :=
  match lookupItem cfg key with
  | none => .error (.unknownKey key)
  | some it =>
    match chain cfg it with
    | none => .error .configError
    | some ch =>
      match chainAtoms ch with
      | none => .error .configError
      | some atoms => (renderAtoms cfg fields atoms).map (⟨·⟩)


/-- A two-placeholder, resolver-less config used to exercise `get_path`
error behaviour. -/
def cfgTwoPh : Config :=
  ⟨[], [⟨"n", "{a}/{b}", none, .inherit, .inherit, .directory, false, []⟩]⟩


/-! ### Path matching and `get_fields` -/

/-- A compiled path-regex item: a literal character or a named capture
around a resolver's unanchored fragment. -/
inductive MItem
  | chr (c : Char)
  | hole (name : String) (f : Frag)
deriving DecidableEq, Repr


/-- Modelled from the spec: the fragment embedded for a placeholder —
`\d{N,}` for a registered `Integer(N)`, the string resolver's own
regex, and the non-greedy `(.+?)` for an extra field (§4.2). -/
def fragOf (cfg : Config) (n : String) : Frag :=
  match lookupResolver cfg n with
  | some (.integerResolver w) => ⟨.digit, w, false⟩
  | some (.stringResolver f) => f
  | none => ⟨.any, 1, true⟩


/-- Compile template atoms to path-regex items. -/
def toMItems (cfg : Config) (atoms : List TAtom) : List MItem :=
  atoms.map fun a =>
    match a with
    | .chr c => .chr c
    | .ph n => .hole n (fragOf cfg n)


/-- Length of the maximal class run at the head of the string — the
largest amount a `cls{min,}` fragment can consume. -/
def runLen (cls : CharClass) (cs : List Char) : Nat :=
  (cs.takeWhile (cls.mem ·)).length


/-- Candidate consumption lengths for a fragment, in backtracking
order: shortest first for a lazy fragment, longest first for a greedy
one — the preference order of a leftmost-first regex engine. -/
def candLens (f : Frag) (r : Nat) : List Nat :=
  let ks := List.range' f.minRep (r + 1 - f.minRep)
  if f.lazyRep then ks else ks.reverse


/-- Modelled from the spec: anchored full-match of a path against the
compiled items with backtracking (§4.5 steps 1–2), returning the list of
named captures in item order.  Fuel is the item count, consumed one item
at a time, so the definition reduces in the kernel. -/
def matchF : Nat → List MItem → List Char → Option (List (String × List Char))
  | _, [], [] => some []
  | _, [], _ :: _ => none
  | 0, _ :: _, _ => none
  | fuel + 1, .chr c :: rest, cs =>
    match cs with
    | [] => none
    | d :: ds => if d = c then matchF fuel rest ds else none
  | fuel + 1, .hole n f :: rest, cs =>
    if f.minRep ≤ runLen f.cls cs then
      (candLens f (runLen f.cls cs)).findSome? fun k =>
        (matchF fuel rest (cs.drop k)).map ((n, cs.take k) :: ·)
    else none


/-- Anchored match of a whole character list. -/
def matchItems (items : List MItem) (cs : List Char) :
    Option (List (String × List Char)) :=
  matchF items.length items cs


/-- Placeholder names of the compiled items, in order (with repeats). -/
def holeNames : List MItem → List String
  | [] => []
  | .chr _ :: rest => holeNames rest
  | .hole n _ :: rest => n :: holeNames rest


/-- First-occurrence deduplication, fuelled so it reduces in the
kernel. -/
def dedupA {α : Type} [DecidableEq α] : Nat → List α → List α
  | 0, l => l
  | _ + 1, [] => []
  | fuel + 1, x :: xs => x :: dedupA fuel (xs.filter (fun y => decide (y ≠ x)))


/-- Keep the first occurrence of every element, preserving order. -/
def dedupF {α : Type} [DecidableEq α] (l : List α) : List α := dedupA l.length l


/-- All captures recorded for a placeholder name. -/
def capsFor (caps : List (String × List Char)) (n : String) : List (List Char) :=
  caps.filterMap fun p => if p.1 = n then some p.2 else none


/-- Modelled from the spec: reconcile all captures for one placeholder
name; disagreement is an `AmbiguousMatch` (§4.2, §4.5 step 3). -/
def reconcile (caps : List (String × List Char)) (n : String) :
    Except Err (List Char) :=
  match capsFor caps n with
  | [] => .error .noMatch
  | v :: rest =>
      if rest.all (fun w => decide (w = v)) then .ok v
      else .error (.ambiguousMatch n)


/-- Modelled from the spec: parse one captured string — the registered
resolver's `parse` if any, else the capture kept as a string (§4.5
step 3). -/
def parseValue (cfg : Config) (n : String) (cap : List Char) :
    Except Err TemplateValue :=
  match lookupResolver cfg n with
  | some r => r.parse n cap
  | none => .ok (.str ⟨cap⟩)


/-- Modelled from the spec: `get_fields(config, key, path)` (§4.5).
Full-match the path against the chain's compiled regex, reconcile the
captures of each distinct placeholder name (order of first appearance)
and parse each through its resolver. -/
def get_fields (cfg : Config) (key : String) (path : String) :
    Except Err (List (String × TemplateValue)) :=
  match lookupItem cfg key with
  | none => .error (.unknownKey key)
  | some it =>
    match chain cfg it with
    | none => .error .configError
    | some ch =>
      match chainAtoms ch with
      | none => .error .configError
      | some atoms =>
        match matchItems (toMItems cfg atoms) path.data with
        | none => .error .noMatch
        | some caps =>
          (dedupF (holeNames (toMItems cfg atoms))).mapM fun n =>
            (reconcile caps n).bind fun cap =>
              (parseValue cfg n cap).map fun v => (n, v)


/-- A field map restricted to a list of names, in that name order. -/
def restrictFields (fields : List (String × TemplateValue))
    (names : List String) : List (String × TemplateValue) :=
  names.filterMap fun n => (lookupField fields n).map fun v => (n, v)


/-- Agreement of a parsed map with every provided field (§4.6). -/
def agreesWith (fields parsed : List (String × TemplateValue)) : Bool :=
  fields.all fun p => decide (lookupField parsed p.1 = some p.2)


/-- The §4.6 per-node test: the node's parse of the path succeeds and
agrees with every provided field. -/
def keyTest (cfg : Config) (path : String)
    (fields : List (String × TemplateValue)) (it : PathItem) : Bool :=
  match get_fields cfg it.key path with
  | .ok parsed => agreesWith fields parsed
  | .error _ => false


/-- Modelled from the spec: `get_key(config, path, fields)` (§4.6) —
the first node in declaration order whose match agrees with every
provided field; `NoMatch` if none. -/
def get_key (cfg : Config) (path : String)
    (fields : List (String × TemplateValue)) : Except Err String :=
  match cfg.items.find? (keyTest cfg path fields) with
  | some it => .ok it.key
  | none => .error .noMatch


/-! #### Test-fixture configurations -/

/-- The greedy `\w+` fragment. -/
def wordPlus : Frag := ⟨.word, 1, false⟩


/-- The lazy `\w+?` fragment. -/
def wordPlusLazy : Frag := ⟨.word, 1, true⟩


/-- The single-node test schema item `path = path/to/{int}/{str}_{other}`. -/
def pathNode : PathItem :=
  ⟨"path", "path/to/{int}/{str}_{other}", none, .inherit, .inherit,
   .directory, false, []⟩


/-- The test config with the greedy string resolver `\w+`
(`test_get_path_success`, `test_get_key_success`). -/
def cfgGreedy : Config :=
  ⟨[("int", .integerResolver 3), ("str", .stringResolver wordPlus)], [pathNode]⟩


/-- The test config with the lazy string resolver `\w+?`
(`test_get_fields_success`). -/
def cfgLazy : Config :=
  ⟨[("int", .integerResolver 3), ("str", .stringResolver wordPlusLazy)], [pathNode]⟩


/-- The field map used throughout the fixtures. -/
def stdFields : List (String × TemplateValue) :=
  [("int", .int 3), ("str", .str "test"), ("other", .str "other_test")]


/-- A capture is faithful to a field map when the field exists and
formats exactly to the captured string. -/
def capFaithful (cfg : Config) (fields : List (String × TemplateValue))
    (pr : String × List Char) : Bool :=
  match lookupField fields pr.1 with
  | some v => decide (formatValue cfg pr.1 v = .ok pr.2)
  | none => false


/-- The atoms of the fixture template `"path/to/{int}/{str}_{other}"`. -/
def pathAtoms : List TAtom :=
  [.chr 'p', .chr 'a', .chr 't', .chr 'h', .chr '/', .chr 't', .chr 'o',
   .chr '/', .ph "int", .chr '/', .ph "str", .chr '_', .ph "other"]


/-- The captures of the lazy match of `"path/to/003/test_other_test"`. -/
def capsLazy : List (String × List Char) :=
  [("int", ['0', '0', '3']), ("str", ['t', 'e', 's', 't']),
   ("other", ['o', 't', 'h', 'e', 'r', '_', 't', 'e', 's', 't'])]


/-- Two nodes with identical templates; the second is shadowed by the
first in `get_key`'s declaration-order scan. -/
def cfgShadow : Config :=
  ⟨[], [⟨"a", "x/{name}", none, .inherit, .inherit, .directory, false, []⟩,
        ⟨"b", "x/{name}", none, .inherit, .inherit, .directory, false, []⟩]⟩


/-! ### Slash components, rungs and `get_workspace` -/

/-- Split an atom stream at its literal `/` characters into path
components (placeholder atoms never contain a literal slash). -/
def splitAtSlash : List TAtom → List (List TAtom)
  | [] => [[]]
  | a :: rest =>
    if a = slashA then [] :: splitAtSlash rest
    else
      match splitAtSlash rest with
      | [] => [[a]]
      | c :: t => (a :: c) :: t


/-- Join components back with `/` atoms. -/
def joinSlash : List (List TAtom) → List TAtom
  | [] => []
  | [c] => c
  | c :: rest => c ++ slashA :: joinSlash rest


/-- Join rendered components with `/` characters. -/
def joinSlashChars : List (List Char) → List Char
  | [] => []
  | [c] => c
  | c :: rest => c ++ '/' :: joinSlashChars rest


/-- The slash components of a node's full template. -/
def nodeComps (cfg : Config) (it : PathItem) : Option (List (List TAtom)) :=
  match chain cfg it with
  | none => none
  | some ch =>
    match chainAtoms ch with
    | none => none
    | some atoms => some (splitAtSlash atoms)


/-- The node's components rendered against the field map, when every
component renders. -/
def renderedComps (cfg : Config) (fields : List (String × TemplateValue))
    (it : PathItem) : Option (List (List Char)) :=
  match nodeComps cfg it with
  | none => none
  | some comps =>
    match comps.mapM (renderAtoms cfg fields) with
    | .ok rc => some rc
    | .error _ => none


/-- Modelled from the spec: a node is fully resolvable when its whole
chain renders against the field map (§4.8). -/
def resolvableB (cfg : Config) (fields : List (String × TemplateValue))
    (it : PathItem) : Bool :=
  (renderedComps cfg fields it).isSome


/-- Modelled from the spec: the ancestor path rungs of a resolvable
node — one entry per component-wise path prefix, from the root component
to the node's own full path (§4.8, behaviour pinned by
`test_get_workspace_success`: a placeholder value containing slashes
counts as a single rung). -/
def rungs (cfg : Config) (fields : List (String × TemplateValue))
    (it : PathItem) : List String :=
  match renderedComps cfg fields it with
  | none => []
  | some rc =>
    (List.range' 1 rc.length).map fun j => ⟨joinSlashChars (rc.take j)⟩


/-- A node is ready for emission when its parent is not among the
remaining nodes. -/
def readyB (rem : List PathItem) (it : PathItem) : Bool :=
  ! rem.any fun p2 => decide (it.parent = some p2.key)


/-- Modelled from the spec: stable topological ordering by declaration —
repeatedly emit, in declaration order, the nodes whose parent has
already been emitted (or is outside the set) (§4.8/§4.9 step 3). -/
def topoGo : Nat → List PathItem → List PathItem → List PathItem
  | 0, acc, rem => acc ++ rem
  | fuel + 1, acc, rem =>
    if rem.filter (readyB rem) = [] then acc ++ rem
    else
      topoGo fuel (acc ++ rem.filter (readyB rem))
        (rem.filter fun it => ! readyB rem it)


/-- Stable topological order of a node list. -/
def topoOrder (l : List PathItem) : List PathItem := topoGo l.length [] l


/-- Modelled from the spec: `get_workspace(config, fields)` (§4.8) —
every fully resolvable node contributes its ancestor rungs and its own
resolved path, in stable topological order, deduplicated keeping first
occurrences; unresolvable nodes contribute nothing.  The result is
modelled as the list of path strings (the `value()` of each resolved
item, which is all the binding test observes). -/
def get_workspace (cfg : Config) (fields : List (String × TemplateValue)) :
    List String :=
  dedupF ((topoOrder cfg.items).flatMap (rungs cfg fields))


/-- Index of the first occurrence of an element (length if absent). -/
def firstIdx {α : Type} [DecidableEq α] (a : α) : List α → Nat
  | [] => 0
  | x :: xs => if x = a then 0 else firstIdx a xs + 1


/-- Boolean form of "equal rung strings have equal rung chains": if two
nodes share a rung string at positions `j1` and `j2`, their rung lists
agree up to those positions.  Rules out string coincidences between
unrelated rungs. -/
def rungChainInjB (cfg : Config)
    (fields : List (String × TemplateValue)) : Bool :=
  cfg.items.all fun it1 => cfg.items.all fun it2 =>
    (List.range (rungs cfg fields it1).length).all fun j1 =>
      (List.range (rungs cfg fields it2).length).all fun j2 =>
        !(decide ((rungs cfg fields it1).getD j1 "" =
            (rungs cfg fields it2).getD j2 "")) ||
        decide ((rungs cfg fields it1).take (j1 + 1) =
            (rungs cfg fields it2).take (j2 + 1))


/-- A node whose template embeds a placeholder value containing slashes:
the resolved path `/a/b/c` has the string-level slash prefix `/a`, which
`get_workspace` does not return. -/
def cfgRootVal : Config :=
  ⟨[], [⟨"n", "{root}/c", none, .inherit, .inherit, .directory, false, []⟩]⟩


/-! ### `create_workspace`: deferred pruning and dispatch -/

/-- `d` is a transitive descendant of `anc`: `anc` appears strictly
before `d` on `d`'s chain. -/
def isDescOf (cfg : Config) (d anc : PathItem) : Bool :=
  match chain cfg d with
  | none => false
  | some l => decide (anc ∈ l.dropLast)


/-- Modelled from the spec: one application of the deferred rule — keep
every non-deferred node, and every deferred node having an included
non-deferred transitive descendant (§4.9 step 2). -/
def deferStep (cfg : Config) (s : List PathItem) : List PathItem :=
  s.filter fun it =>
    !it.deferred || s.any fun d => !d.deferred && isDescOf cfg d it


/-- Iterate the deferred rule until stable (fuelled). -/
def deferFix : Nat → Config → List PathItem → List PathItem
  | 0, _, s => s
  | fuel + 1, cfg, s =>
    if deferStep cfg s = s then s else deferFix fuel cfg (deferStep cfg s)


/-- Modelled from the spec: the dispatched set of `create_workspace` —
the resolvable nodes, deferred-pruned to a fixpoint (§4.9 steps 1–2). -/
def dispatchSet (cfg : Config)
    (fields : List (String × TemplateValue)) : List PathItem :=
  deferFix cfg.items.length cfg (cfg.items.filter (resolvableB cfg fields))


/-- Modelled from the spec: a resolved path item — a node paired with
its concrete path string. -/
structure ResolvedPathItem where
  item : PathItem
  value : String
deriving DecidableEq, Repr


/-- Modelled from the spec: `create_workspace(config, fields, …)`
(§4.9) — the dispatched nodes in stable topological order, each with its
resolved path.  The external IO callback is awaited per element, so this
list is exactly the temporal sequence of callback invocations; the
callback itself (and the `extra_metadata` merge it receives) is outside
the core. -/
def create_workspace (cfg : Config)
    (fields : List (String × TemplateValue)) : List ResolvedPathItem :=
  (topoOrder (dispatchSet cfg fields)).filterMap fun it =>
    match renderedComps cfg fields it with
    | none => none
    | some rc => some ⟨it, ⟨joinSlashChars rc⟩⟩


/-- The nodes whose callback is invoked, in invocation order. -/
def dispatched (cfg : Config)
    (fields : List (String × TemplateValue)) : List PathItem :=
  (create_workspace cfg fields).map (·.item)


/-- A deferred root with one non-deferred child; placeholder-free
templates make both nodes trivially resolvable. -/
def deferNodeR : PathItem :=
  ⟨"r", "base", none, .inherit, .inherit, .directory, true, []⟩


/-- The non-deferred child of `deferNodeR`. -/
def deferNodeC : PathItem :=
  ⟨"c", "leaf", some "r", .inherit, .inherit, .directory, false, []⟩


/-- A two-node schema exercising the deferred rule. -/
def cfgDefer : Config := ⟨[], [deferNodeR, deferNodeC]⟩


/-- Length of a node's chain (0 when the chain is invalid). -/
def chainLen (cfg : Config) (x : PathItem) : Nat :=
  match chain cfg x with
  | none => 0
  | some l => l.length


/-! #### `find_paths` (§4.7) -/

/-- Modelled from the spec: substitute one template atom for
`find_paths` (§4.7 step 2) — a placeholder bound in the partial field
map becomes its formatted literal text, an unbound one stays as its
resolver fragment in a named capture. -/
def substAtom (cfg : Config) (pf : List (String × TemplateValue)) :
    TAtom → Except Err (List MItem)
  | .chr c => .ok [.chr c]
  | .ph n =>
    match lookupField pf n with
    | some v => (formatValue cfg n v).map (fun s => s.map MItem.chr)
    | none => .ok [.hole n (fragOf cfg n)]


/-- The substituted pattern of a whole atom stream. -/
def substItems (cfg : Config) (pf : List (String × TemplateValue))
    (atoms : List TAtom) : Except Err (List MItem) :=
  (atoms.mapM (substAtom cfg pf)).map (fun ls => ls.flatten)


/-- Modelled from the spec: split the substituted pattern at `/`
boundaries into per-component patterns (§4.7 step 3); slashes inside a
substituted field value split like template slashes, since both are
literal text of the resulting pattern. -/
def splitSlashM : List MItem → List MItem → List (List MItem)
  | [], acc => [acc.reverse]
  | x :: rest, acc =>
    if x = .chr '/' then acc.reverse :: splitSlashM rest []
    else splitSlashM rest (x :: acc)


/-- The per-component pattern list of `find_paths` (§4.7 steps 1–3). -/
def findPattern (cfg : Config) (key : String)
    (pf : List (String × TemplateValue)) : Except Err (List (List MItem)) :=
  match lookupItem cfg key with
  | none => .error (.unknownKey key)
  | some it =>
    match chain cfg it with
    | none => .error .configError
    | some ch =>
      match chainAtoms ch with
      | none => .error .configError
      | some atoms =>
        (substItems cfg pf atoms).map (fun items => splitSlashM items [])


/-- One entry of a readdir in the modelled filesystem: a path `q` is
the child `c` of the directory `p` exactly when `q = p ++ [c]`. -/
def childF (p q : List String) : Option String :=
  match q.drop p.length with
  | [c] => if q.take p.length = p then some c else none
  | _ => none


/-- `readdir p` over the modelled filesystem: the filesystem is the
list of existing paths, each a list of components from the search
root, and the children of `p` are the one-step extensions present. -/
def childrenFS (fs : List (List String)) (p : List String) : List String :=
  fs.filterMap (childF p)


/-- A pattern component made of literal characters only. -/
def isLitComp : List MItem → Bool
  | [] => true
  | .chr _ :: rest => isLitComp rest
  | .hole _ _ :: rest => false


/-- The literal text of a component (holes contribute nothing). -/
def litName : List MItem → List Char
  | [] => []
  | .chr c :: rest => c :: litName rest
  | .hole _ _ :: rest => litName rest


/-- One component name matches one component pattern (anchored). -/
def compMatches (comp : List MItem) (s : String) : Bool :=
  (matchItems comp s.data).isSome


/-- Componentwise match of a whole path against the pattern list. -/
def matchesComps : List (List MItem) → List String → Bool
  | [], [] => true
  | comp :: comps, s :: ss => compMatches comp s && matchesComps comps ss
  | _, _ => false


/-- Modelled from the spec: the filesystem walk (§4.7 steps 3–4) — a
literal component is joined directly, a dynamic component drives a
readdir filtered by the component pattern (a missing intermediate
directory prunes the branch, §4.10), and an accumulated path is kept
when it exists. -/
def walkFS (fs : List (List String)) :
    List (List MItem) → List String → List (List String)
  | [], p => if p ∈ fs then [p] else []
  | comp :: comps, p =>
    if isLitComp comp then walkFS fs comps (p ++ [⟨litName comp⟩])
    else
      ((childrenFS fs p).filter (fun c => compMatches comp c)).flatMap
        fun c => walkFS fs comps (p ++ [c])


/-- Modelled from the spec: `find_paths(config, key, partial_fields)`
(§4.7) over the modelled filesystem. -/
def find_paths (cfg : Config) (key : String)
    (pf : List (String × TemplateValue)) (fs : List (List String)) :
    Except Err (List (List String)) :=
  (findPattern cfg key pf).map (fun comps => walkFS fs comps [])


/-- Every nonempty proper or full ancestor of an existing path exists:
the filesystem was materialized directory by directory. -/
def ancClosedB (fs : List (List String)) : Bool :=
  fs.all fun q => (List.range q.length).all fun k =>
    decide (q.take (k + 1) ∈ fs)


/-- A single-node schema with template `{str}_{other}` and no
registered resolvers: both placeholders are extras matched by the
non-greedy `(.+?)`. -/
def cfgFP : Config :=
  ⟨[], [⟨"p", "{str}_{other}", none, .inherit, .inherit, .directory,
        false, []⟩]⟩


/-- The on-disk paths generated by formatting the Cartesian product
`{str ∈ {a, a_b}} × {other ∈ {c}}` through the template. -/
def fsFP : List (List String) := [["a_c"], ["a_b_c"]]


/-- The substituted component pattern for the partial map `{str: a}`:
the bound `str` became the literal `a`, the unbound `other` stays a
non-greedy any-run capture. -/
def compsFP : List (List MItem) :=
  [[.chr 'a', .chr '_', .hole "other" ⟨.any, 1, true⟩]]


/-- What `find_paths` returns on the fixture. -/
def resFP : List (List String) := [["a_c"], ["a_b_c"]]


/-- The six-node forest of `test_create_workspace_regression_segfault`:
two sibling subtrees under a common root reuse identical placeholder
names and identical template strings, and one leaf is a `File` with
non-empty metadata. -/
def regItems : List PathItem :=
  [⟨"root", "{root_dir}", none, .inherit, .inherit, .directory, false, []⟩,
   ⟨"art_root", "{project_name}-art", some "root", .inherit, .inherit,
    .directory, false, []⟩,
   ⟨"game_root", "{project_name}-game", some "root", .inherit, .inherit,
    .directory, false, []⟩,
   ⟨"art_asset_workspace", "art_assets/{asset_type}/{asset_name}",
    some "art_root", .inherit, .inherit, .directory, false, []⟩,
   ⟨"art_asset_blend", "{asset_name}.blend", some "art_asset_workspace",
    .inherit, .inherit, .file, false, [("skip", "true")]⟩,
   ⟨"game_asset_dir", "art_assets/{asset_type}/{asset_name}",
    some "game_root", .inherit, .inherit, .directory, false, []⟩]


/-- The regression config: empty resolver map, six-node forest. -/
def cfgRegression : Config := ⟨[], regItems⟩


/-- The regression field map (every placeholder an extra field). -/
def regFields : List (String × TemplateValue) :=
  [("root_dir", .str "/tmp/root"), ("project_name", .str "project_name"),
   ("asset_type", .str "asset_type"), ("asset_name", .str "asset_name")]

/-! ### Theorems -/


/-! #### Facts about the decimal codec -/

theorem natCharsAux_eq (fuel n : Nat) (h : n ≤ fuel) :
    natCharsAux fuel n = (Nat.digits 10 n).map digitChar := by
  induction fuel generalizing n with
  | zero =>
      interval_cases n
      simp [natCharsAux]
  | succ fuel ih =>
      cases n with
      | zero => simp [natCharsAux]
      | succ n =>
          rw [natCharsAux, Nat.digits_def' (by norm_num : (1:ℕ) < 10) (Nat.succ_pos n)]
          rw [List.map_cons, ih]
          have : (n + 1) / 10 < n + 1 := Nat.div_lt_self (Nat.succ_pos n) (by norm_num)
          omega


theorem natChars_eq (n : Nat) (hn : n ≠ 0) :
    natChars n = ((Nat.digits 10 n).map digitChar).reverse := by
  rw [natChars, if_neg hn, natCharsAux_eq n n le_rfl]


theorem charToDigit_digitChar (d : Nat) (hd : d < 10) :
    charToDigit (digitChar d) = d := by
  interval_cases d <;> rfl


theorem isDigit_digitChar (d : Nat) (hd : d < 10) :
    (digitChar d).isDigit = true := by
  interval_cases d <;> rfl


theorem charsToNat_eq (cs : List Char) :
    charsToNat cs = Nat.ofDigits 10 ((cs.map charToDigit).reverse) := by
  suffices h : ∀ acc, cs.foldl (fun acc c => 10 * acc + charToDigit c) acc
      = acc * 10 ^ cs.length + Nat.ofDigits 10 ((cs.map charToDigit).reverse) by
    simpa [charsToNat] using h 0
  induction cs with
  | nil => intro acc; simp [Nat.ofDigits]
  | cons c cs ih =>
      intro acc
      rw [List.foldl_cons, ih]
      rw [List.map_cons, List.reverse_cons, Nat.ofDigits_append]
      simp [Nat.ofDigits]
      ring


theorem ofDigits_replicate_zero (k : Nat) :
    Nat.ofDigits 10 (List.replicate k 0) = 0 := by
  induction k with
  | zero => simp [Nat.ofDigits]
  | succ k ih => simp [List.replicate_succ, Nat.ofDigits, ih]


theorem natChars_all_digits (n : Nat) :
    (natChars n).all (·.isDigit) = true := by
  by_cases hn : n = 0
  · subst hn; rfl
  · rw [natChars_eq n hn]
    simp only [List.all_reverse, List.all_eq_true]
    intro c hc
    simp only [List.mem_map] at hc
    obtain ⟨d, hd, rfl⟩ := hc
    exact isDigit_digitChar d (Nat.digits_lt_base (by norm_num) hd)


theorem natChars_ne_nil (n : Nat) : natChars n ≠ [] := by
  by_cases hn : n = 0
  · subst hn; simp [natChars]
  · rw [natChars_eq n hn]
    simp [Nat.digits_ne_nil_iff_ne_zero, hn]


theorem charsToNat_padChars (width n : Nat) :
    charsToNat (padChars width n) = n := by
  rw [padChars, charsToNat_eq, List.map_append, List.reverse_append]
  have h0 : charToDigit '0' = 0 := rfl
  have hrep : (List.replicate (width - (natChars n).length) '0').map charToDigit
      = List.replicate (width - (natChars n).length) 0 := by
    rw [List.map_replicate, h0]
  rw [hrep, List.reverse_replicate, Nat.ofDigits_append, ofDigits_replicate_zero]
  by_cases hn : n = 0
  · subst hn; simp [natChars, Nat.ofDigits]; rfl
  · rw [natChars_eq n hn]
    rw [List.map_reverse, List.reverse_reverse, List.map_map]
    have : (Nat.digits 10 n).map (charToDigit ∘ digitChar) = Nat.digits 10 n := by
      have := List.map_congr_left (l := Nat.digits 10 n)
        (f := charToDigit ∘ digitChar) (g := id)
        (fun d hd => charToDigit_digitChar d (Nat.digits_lt_base (by norm_num) hd))
      rw [this, List.map_id]
    rw [this, Nat.ofDigits_digits]
    simp


theorem padChars_length (width n : Nat) :
    (padChars width n).length = max width (natChars n).length := by
  simp [padChars]
  omega


theorem natChars_length_le (width n : Nat) (h : n < 10 ^ width) :
    (natChars n).length ≤ max 1 width := by
  by_cases hn : n = 0
  · subst hn; simp [natChars]
  · rw [natChars_eq n hn]
    simp only [List.length_reverse, List.length_map]
    rw [Nat.digits_len 10 n (by norm_num) hn]
    have := (Nat.lt_pow_iff_log_lt (by norm_num : (1:ℕ) < 10) hn).mp h
    omega


theorem intResolver_parse_format (width : Nat) (name : String) (i : Int)
    (hi : 0 ≤ i) :
    (Resolver.integerResolver width).format name (.int i) = .ok (padChars width i.toNat) ∧
    (Resolver.integerResolver width).parse name (padChars width i.toNat) = .ok (.int i) := by
  constructor
  · rw [Resolver.format, if_neg (by omega)]
  · rw [Resolver.parse, if_pos, charsToNat_padChars]
    · congr 1
      congr 1
      exact Int.toNat_of_nonneg hi
    · refine ⟨?_, ?_, ?_⟩
      · intro hnil
        have := natChars_ne_nil i.toNat
        simp only [padChars, List.append_eq_nil] at hnil
        exact this hnil.2
      · have h := natChars_all_digits i.toNat
        simp only [padChars, List.all_append, Bool.and_eq_true, List.all_eq_true]
        refine ⟨?_, by simpa [List.all_eq_true] using h⟩
        intro c hc
        simp only [List.mem_replicate] at hc
        rw [hc.2]; rfl
      · rw [padChars_length]; omega


/-- C4 (claim): for `IntegerResolver(N)` and every non-negative integer
`i`, `format i` is the decimal representation of `i` left-padded with
zeros to length at least `N`, `parse (format i) = i`, for `0 ≤ i < 10^N`
the formatted string has exactly `N` digits, and every negative integer
is a `FormatError`. -/
theorem C4_integer_resolver (width : Nat) (name : String) (i : Int) (hw : 1 ≤ width) :
    (0 ≤ i →
      (Resolver.integerResolver width).format name (.int i) = .ok (padChars width i.toNat) ∧
      width ≤ (padChars width i.toNat).length ∧
      (Resolver.integerResolver width).parse name (padChars width i.toNat) = .ok (.int i) ∧
      (i < (10:Int) ^ width → (padChars width i.toNat).length = width)) ∧
    (i < 0 → (Resolver.integerResolver width).format name (.int i) = .error (.formatError name)) := by
  constructor
  · intro hi
    obtain ⟨hfmt, hparse⟩ := intResolver_parse_format width name i hi
    refine ⟨hfmt, ?_, hparse, ?_⟩
    · rw [padChars_length]; omega
    · intro hlt
      have hnat : i.toNat < 10 ^ width := by
        have : ((10:Int) ^ width) = ((10 ^ width : Nat) : Int) := by push_cast; ring
        omega
      have := natChars_length_le width i.toNat hnat
      rw [padChars_length]
      omega
  · intro hi
    rw [Resolver.format, if_pos hi]


/-- Witness for C4 at `N = 3`, `i = 4`: the formatted string is `"004"`
(three characters) and parses back to `4`. -/
theorem C4_integer_resolver_witness :
    (Resolver.integerResolver 3).format "int" (.int 4) = .ok ['0', '0', '4'] ∧
    (Resolver.integerResolver 3).parse "int" ['0', '0', '4'] = .ok (.int 4) ∧
    (padChars 3 (Int.toNat 4)).length = 3 := by
  have h := (C4_integer_resolver 3 "int" 4 (by norm_num)).1 (by norm_num)
  refine ⟨?_, ?_, h.2.2.2 (by norm_num)⟩
  · rw [h.1]; rfl
  · have := h.2.2.1
    simpa using this


theorem renderAtoms_append (cfg : Config) (fields : List (String × TemplateValue))
    (xs ys : List TAtom) :
    renderAtoms cfg fields (xs ++ ys) =
      (renderAtoms cfg fields xs).bind
        (fun a => (renderAtoms cfg fields ys).map (a ++ ·)) := by
  induction xs with
  | nil =>
      simp only [List.nil_append, renderAtoms, Except.bind]
      cases renderAtoms cfg fields ys <;> rfl
  | cons x xs ih =>
      cases x with
      | chr c =>
          simp only [List.cons_append, renderAtoms, List.append_eq, ih]
          cases renderAtoms cfg fields xs <;> cases renderAtoms cfg fields ys <;> rfl
      | ph n =>
          cases hf : lookupField fields n with
          | none =>
              simp only [List.cons_append, renderAtoms, hf]
              rfl
          | some v =>
              cases hv : formatValue cfg n v with
              | error e =>
                  simp only [List.cons_append, renderAtoms, hf, hv]
                  rfl
              | ok s =>
                  simp only [List.cons_append, renderAtoms, hf, hv, List.append_eq, ih]
                  cases renderAtoms cfg fields xs <;>
                    cases renderAtoms cfg fields ys <;>
                      simp [Except.bind, Except.map]


theorem renderAtoms_missing_not_ok (cfg : Config)
    (fields : List (String × TemplateValue)) (atoms : List TAtom) (n : String)
    (hmem : TAtom.ph n ∈ atoms) (hmiss : lookupField fields n = none) :
    ∀ s, renderAtoms cfg fields atoms ≠ .ok s := by
  induction atoms with
  | nil => cases hmem
  | cons x rest ih =>
      intro s hok
      cases x with
      | chr c =>
          have hmem' : TAtom.ph n ∈ rest := by
            cases hmem with
            | tail _ h => exact h
          simp only [renderAtoms] at hok
          cases hrest : renderAtoms cfg fields rest with
          | error e =>
              rw [hrest] at hok
              exact Except.noConfusion hok
          | ok t => exact ih hmem' t hrest
      | ph k =>
          by_cases hkn : k = n
          · subst hkn
            simp only [renderAtoms, hmiss] at hok
            exact Except.noConfusion hok
          · have hmem' : TAtom.ph n ∈ rest := by
              cases hmem with
              | head => exact absurd rfl hkn
              | tail _ h => exact h
            cases hf : lookupField fields k with
            | none =>
                simp only [renderAtoms, hf] at hok
                exact Except.noConfusion hok
            | some v =>
                cases hfmt : formatValue cfg k v with
                | error e =>
                    simp only [renderAtoms, hf, hfmt] at hok
                    exact Except.noConfusion hok
                | ok t =>
                    simp only [renderAtoms, hf, hfmt] at hok
                    cases hrest : renderAtoms cfg fields rest with
                    | error e =>
                        rw [hrest] at hok
                        exact Except.noConfusion hok
                    | ok u => exact ih hmem' u hrest


/-- C9 (counterexample): with a single node of template `"{a}/{b}"`, no
resolvers and an empty field map, the placeholder `"b"` of the full
template is absent from the field map, yet `get_path` fails with
`MissingField "a"` — not `MissingField "b"` as the claim requires for
every absent placeholder name. -/
theorem C9_counterexample :
    nodeAtoms cfgTwoPh "n" = some [.ph "a", slashA, .ph "b"] ∧
    lookupField [] "b" = none ∧
    get_path cfgTwoPh "n" [] = .error (.missingField "a") ∧
    ¬ get_path cfgTwoPh "n" [] = .error (.missingField "b") := by
  decide


/-- C9 (amended): an unknown key fails with `UnknownKey`.  If some
placeholder of the node's full template is absent from the field map,
`get_path` fails (it never returns a path), and the error is
`MissingField n` for the first absent placeholder `n` in template order,
provided every placeholder before it renders successfully. -/
theorem C9_get_path_errors (cfg : Config) (key : String)
    (fields : List (String × TemplateValue)) :
    (lookupItem cfg key = none → get_path cfg key fields = .error (.unknownKey key)) ∧
    (∀ it ch atoms, lookupItem cfg key = some it → chain cfg it = some ch →
      chainAtoms ch = some atoms →
      (∀ n, TAtom.ph n ∈ atoms → lookupField fields n = none →
        ∀ s, get_path cfg key fields ≠ .ok s) ∧
      (∀ pre n post, atoms = pre ++ TAtom.ph n :: post →
        lookupField fields n = none →
        (∃ s, renderAtoms cfg fields pre = .ok s) →
        get_path cfg key fields = .error (.missingField n))) := by
  constructor
  · intro hnone
    simp only [get_path, hnone]
  · intro it ch atoms hit hch hatoms
    constructor
    · intro n hmem hmiss s hok
      simp only [get_path, hit, hch, hatoms] at hok
      cases hrend : renderAtoms cfg fields atoms with
      | error e => rw [hrend] at hok; cases hok
      | ok t => exact renderAtoms_missing_not_ok cfg fields atoms n hmem hmiss t hrend
    · intro pre n post hsplit hmiss hpre
      obtain ⟨s, hs⟩ := hpre
      simp only [get_path, hit, hch, hatoms, hsplit]
      rw [renderAtoms_append, hs]
      simp only [Except.bind]
      simp [renderAtoms, hmiss, Except.map]


/-- Witness for C9: single node `"{a}/{b}"`, field map `{a ↦ "x"}`; the
prefix before `{b}` renders to `"x/"` and `get_path` fails with
`MissingField "b"`. -/
theorem C9_get_path_errors_witness :
    get_path cfgTwoPh "n" [("a", .str "x")] = .error (.missingField "b") ∧
    get_path cfgTwoPh "bogus" [("a", .str "x")] = .error (.unknownKey "bogus") := by
  constructor
  · exact ((C9_get_path_errors cfgTwoPh "n" [("a", .str "x")]).2
      ⟨"n", "{a}/{b}", none, .inherit, .inherit, .directory, false, []⟩
      [⟨"n", "{a}/{b}", none, .inherit, .inherit, .directory, false, []⟩]
      [.ph "a", slashA, .ph "b"] (by decide) (by decide) (by decide)).2
      [.ph "a", slashA] "b" [] (by decide) (by decide) ⟨['x', '/'], by decide⟩
  · exact (C9_get_path_errors cfgTwoPh "bogus" [("a", .str "x")]).1 (by decide)


/-- C5 (claim): on the `\w+?` config, `get_fields` of
`"path/to/004/test_other_test"` returns `{int ↦ 4, str ↦ "test",
other ↦ "other_test"}`, with `int` parsed to an integer by its resolver
and `other` — which has no registered resolver — kept as the captured
string. -/
theorem C5_get_fields_concrete :
    get_fields cfgLazy "path" "path/to/004/test_other_test" =
      .ok [("int", .int 4), ("str", .str "test"), ("other", .str "other_test")] ∧
    lookupResolver cfgLazy "other" = none := by
  decide


theorem string_mk_data (s : String) : String.mk s.data = s := by
  cases s
  rfl


theorem exceptMapM_cons {α β : Type} (f : α → Except Err β) (a : α)
    (l : List α) (x : β) (xs : List β) (ha : f a = .ok x)
    (hl : l.mapM f = .ok xs) : (a :: l).mapM f = .ok (x :: xs) := by
  rw [List.mapM_cons, ha, hl]
  rfl


theorem parse_format (cfg : Config) (n : String) (v : TemplateValue)
    (s : List Char) (h : formatValue cfg n v = .ok s) :
    parseValue cfg n s = .ok v := by
  unfold formatValue at h
  unfold parseValue
  cases hr : lookupResolver cfg n with
  | none =>
      rw [hr] at h
      cases v with
      | int i => cases h
      | str s0 =>
          injection h with h
          subst h
          rw [string_mk_data]
  | some r =>
      rw [hr] at h
      cases r with
      | integerResolver w =>
          cases v with
          | str s0 => cases h
          | int i =>
              simp only [Resolver.format] at h
              by_cases hi : i < 0
              · rw [if_pos hi] at h; cases h
              · rw [if_neg hi] at h
                injection h with h
                subst h
                exact (intResolver_parse_format w n i (by omega)).2
      | stringResolver f =>
          cases v with
          | int i => cases h
          | str s0 =>
              simp only [Resolver.format] at h
              by_cases hacc : f.accepts s0.data = true
              · rw [if_pos hacc] at h
                injection h with h
                subst h
                simp only [Resolver.parse, if_pos hacc, string_mk_data]
              · rw [if_neg hacc] at h; cases h


theorem findSome?_exists {α β : Type} (f : α → Option β) (l : List α) (b : β)
    (h : l.findSome? f = some b) : ∃ a, a ∈ l ∧ f a = some b := by
  induction l with
  | nil => cases h
  | cons x xs ih =>
      cases hfx : f x with
      | some c =>
          simp only [List.findSome?, hfx] at h
          exact ⟨x, List.mem_cons_self x xs, by rw [hfx, h]⟩
      | none =>
          simp only [List.findSome?, hfx] at h
          obtain ⟨a, ha, hfa⟩ := ih h
          exact ⟨a, List.mem_cons_of_mem x ha, hfa⟩


theorem matchF_names (items : List MItem) :
    ∀ fuel cs caps, items.length ≤ fuel → matchF fuel items cs = some caps →
      caps.map Prod.fst = holeNames items := by
  induction items with
  | nil =>
      intro fuel cs caps _ h
      cases cs with
      | nil =>
          cases fuel <;>
            · injection h with h
              rw [← h]
              rfl
      | cons c cs => cases fuel <;> cases h
  | cons x rest ih =>
      intro fuel cs caps hlen h
      cases fuel with
      | zero => simp at hlen
      | succ fuel =>
          have hlen' : rest.length ≤ fuel := by
            simp only [List.length_cons] at hlen
            omega
          cases x with
          | chr c =>
              cases cs with
              | nil => cases h
              | cons d ds =>
                  simp only [matchF] at h
                  by_cases hdc : d = c
                  · rw [if_pos hdc] at h
                    rw [holeNames]
                    exact ih fuel ds caps hlen' h
                  · rw [if_neg hdc] at h; cases h
          | hole n f =>
              simp only [matchF] at h
              by_cases hmin : f.minRep ≤ runLen f.cls cs
              · rw [if_pos hmin] at h
                obtain ⟨k, _, hfk⟩ := findSome?_exists _ _ _ h
                cases hm : matchF fuel rest (cs.drop k) with
                | none => rw [hm] at hfk; cases hfk
                | some caps' =>
                    rw [hm] at hfk
                    simp only [Option.map_some'] at hfk
                    injection hfk with hfk
                    subst hfk
                    rw [holeNames, List.map_cons]
                    rw [ih fuel (cs.drop k) caps' hlen' hm]
              · rw [if_neg hmin] at h; cases h


theorem mem_dedupA {α : Type} [DecidableEq α] :
    ∀ (fuel : Nat) (l : List α) (x : α), x ∈ dedupA fuel l → x ∈ l := by
  intro fuel
  induction fuel with
  | zero => intro l x h; exact h
  | succ fuel ih =>
      intro l x h
      cases l with
      | nil => cases h
      | cons y ys =>
          rw [dedupA] at h
          cases h with
          | head => exact List.mem_cons_self _ _
          | tail _ h =>
              exact List.mem_cons_of_mem _ (List.mem_of_mem_filter (ih _ _ h))


theorem mem_dedupF {α : Type} [DecidableEq α] (l : List α) (x : α)
    (h : x ∈ dedupF l) : x ∈ l :=
  mem_dedupA l.length l x h


theorem capsFor_mem (caps : List (String × List Char)) (n : String)
    (w : List Char) (h : w ∈ capsFor caps n) : (n, w) ∈ caps := by
  rw [capsFor, List.mem_filterMap] at h
  obtain ⟨pr, hpr, heq⟩ := h
  by_cases h1 : pr.1 = n
  · rw [if_pos h1] at heq
    injection heq with heq
    have : pr = (n, w) := by
      cases pr
      simp only at h1 heq
      rw [h1, heq]
    rw [← this]
    exact hpr
  · rw [if_neg h1] at heq; cases heq


theorem reconcile_faithful (cfg : Config)
    (fields : List (String × TemplateValue))
    (caps : List (String × List Char)) (n : String) (v : TemplateValue)
    (s : List Char)
    (hcap : caps.all (capFaithful cfg fields) = true)
    (hv : lookupField fields n = some v)
    (hs : formatValue cfg n v = .ok s)
    (hmem : n ∈ caps.map Prod.fst) :
    reconcile caps n = .ok s := by
  have hall : ∀ w ∈ capsFor caps n, w = s := by
    intro w hw
    have hpr : (n, w) ∈ caps := capsFor_mem caps n w hw
    have := (List.all_eq_true.mp hcap) (n, w) hpr
    rw [capFaithful] at this
    simp only at this
    rw [hv] at this
    have hfmt : formatValue cfg n v = .ok w := of_decide_eq_true this
    rw [hs] at hfmt
    injection hfmt with hfmt
    exact hfmt.symm
  have hne : capsFor caps n ≠ [] := by
    rw [List.mem_map] at hmem
    obtain ⟨pr, hpr, h1⟩ := hmem
    intro hnil
    have : pr.2 ∈ capsFor caps n := by
      rw [capsFor, List.mem_filterMap]
      exact ⟨pr, hpr, by rw [if_pos h1]⟩
    rw [hnil] at this
    cases this
  cases hcf : capsFor caps n with
  | nil => exact absurd hcf hne
  | cons w rest =>
      have hw : w = s := hall w (by rw [hcf]; exact List.mem_cons_self w rest)
      have hrest : (rest.all fun u => decide (u = s)) = true := by
        rw [List.all_eq_true]
        intro u hu
        have h1 : u = s := hall u (by rw [hcf]; exact List.mem_cons_of_mem w hu)
        rw [h1]
        exact decide_eq_true rfl
      simp only [reconcile, hcf, hw, hrest, if_true]


/-- C1 (counterexample): with the greedy `\w+` resolver of the
`get_path`/`get_key` fixtures and the fixture field map (all values
acceptable to their resolvers — `get_path` succeeds), the backtracking
match assigns `str ↦ "test_other"` and `other ↦ "test"`, so
`get_fields ∘ get_path` does not return the original fields restricted
to the placeholder set. -/
theorem C1_counterexample :
    get_path cfgGreedy "path" stdFields = .ok "path/to/003/test_other_test" ∧
    get_fields cfgGreedy "path" "path/to/003/test_other_test" =
      .ok [("int", .int 3), ("str", .str "test_other"), ("other", .str "test")] ∧
    restrictFields stdFields ["int", "str", "other"] = stdFields ∧
    ¬ get_fields cfgGreedy "path" "path/to/003/test_other_test" = .ok stdFields := by
  decide


/-- C1 (amended): the round trip holds whenever the match of the
produced path is faithful — every capture equals the string formatted
from the original field.  Under that proviso,
`get_fields(cfg, key, get_path(cfg, key, fields))` is exactly `fields`
restricted to the node's placeholder set (in order of first
appearance). -/
theorem C1_round_trip (cfg : Config) (key : String)
    (fields : List (String × TemplateValue)) (it : PathItem)
    (ch : List PathItem) (atoms : List TAtom)
    (caps : List (String × List Char)) (p : String)
    (hit : lookupItem cfg key = some it)
    (hch : chain cfg it = some ch)
    (hat : chainAtoms ch = some atoms)
    (hp : get_path cfg key fields = .ok p)
    (hm : matchItems (toMItems cfg atoms) p.data = some caps)
    (hcap : caps.all (capFaithful cfg fields) = true) :
    get_fields cfg key p =
      .ok (restrictFields fields (dedupF (holeNames (toMItems cfg atoms)))) := by
  have hnames : caps.map Prod.fst = holeNames (toMItems cfg atoms) :=
    matchF_names (toMItems cfg atoms) (toMItems cfg atoms).length p.data caps
      le_rfl hm
  simp only [get_fields, hit, hch, hat, hm]
  have hsub : ∀ n ∈ dedupF (holeNames (toMItems cfg atoms)),
      n ∈ caps.map Prod.fst := by
    intro n hn
    rw [hnames]
    exact mem_dedupF _ n hn
  generalize dedupF (holeNames (toMItems cfg atoms)) = names at hsub ⊢
  induction names with
  | nil => rfl
  | cons n ns ihn =>
      have hn : n ∈ caps.map Prod.fst := hsub n (List.mem_cons_self n ns)
      obtain ⟨pr, hpr, h1⟩ := List.mem_map.mp hn
      have hfaith := (List.all_eq_true.mp hcap) pr hpr
      rw [capFaithful] at hfaith
      cases hv : lookupField fields pr.1 with
      | none => rw [hv] at hfaith; cases hfaith
      | some v =>
          rw [hv] at hfaith
          simp only at hfaith
          have hfmt : formatValue cfg pr.1 v = .ok pr.2 :=
            of_decide_eq_true hfaith
          rw [h1] at hv hfmt
          have hrec : reconcile caps n = .ok pr.2 :=
            reconcile_faithful cfg fields caps n v pr.2 hcap hv hfmt hn
          have hpv : parseValue cfg n pr.2 = .ok v :=
            parse_format cfg n v pr.2 hfmt
          have hf : ((reconcile caps n).bind fun cap =>
              Except.map (fun w => (n, w)) (parseValue cfg n cap)) = .ok (n, v) := by
            rw [hrec]
            show Except.map (fun w => (n, w)) (parseValue cfg n pr.2) = _
            rw [hpv]
            rfl
          have ihr := ihn (fun m hm2 => hsub m (List.mem_cons_of_mem n hm2))
          rw [exceptMapM_cons _ n ns (n, v) (restrictFields fields ns) hf ihr]
          simp only [restrictFields, List.filterMap_cons, hv, Option.map_some']


/-- Witness for C1 on the lazy fixture config: the match of the produced
path is faithful and the round trip recovers the fixture fields. -/
theorem C1_round_trip_witness :
    get_fields cfgLazy "path" "path/to/003/test_other_test" =
      .ok (restrictFields stdFields ["int", "str", "other"]) := by
  have h := C1_round_trip cfgLazy "path" stdFields pathNode [pathNode]
    pathAtoms capsLazy "path/to/003/test_other_test"
    (by decide) (by decide) (by decide) (by decide) (by decide) (by decide)
  exact h.trans (by decide)


/-- C3 (counterexample): with two nodes of identical template, the path
produced by `get_path` for key `"b"` is attributed by `get_key` to the
earlier node `"a"`, so `get_key(cfg, get_path(cfg, key, fields), fields)
= key` fails for `key = "b"`. -/
theorem C3_counterexample :
    get_path cfgShadow "b" [("name", .str "test")] = .ok "x/test" ∧
    get_key cfgShadow "x/test" [("name", .str "test")] = .ok "a" ∧
    ¬ get_key cfgShadow "x/test" [("name", .str "test")] = .ok "b" := by
  decide


theorem find?_first {α : Type} (test : α → Bool) :
    ∀ (pre post : List α) (x : α), (∀ y ∈ pre, test y = false) →
      test x = true → List.find? test (pre ++ x :: post) = some x := by
  intro pre
  induction pre with
  | nil =>
      intro post x _ hx
      rw [List.nil_append]
      exact List.find?_cons_of_pos post hx
  | cons y ys ih =>
      intro post x hpre hx
      have hy : ¬ test y = true := by
        simp [hpre y (List.mem_cons_self y ys)]
      rw [List.cons_append, List.find?_cons_of_neg _ hy]
      exact ih post x (fun z hz => hpre z (List.mem_cons_of_mem y hz)) hx


/-- C3 (amended): `get_key(cfg, get_path(cfg, key, fields), fields)`
returns `key` provided `key`'s node is the first node in declaration
order whose match of the path agrees with the provided fields; when an
earlier node also matches, that node's key is returned instead
(deterministically, as the counterexample shows). -/
theorem C3_get_key_first (cfg : Config) (key : String)
    (fields : List (String × TemplateValue)) (p : String)
    (pre post : List PathItem) (it : PathItem)
    (hsplit : cfg.items = pre ++ it :: post) (hkey : it.key = key)
    (hpre : ∀ it2 ∈ pre, keyTest cfg p fields it2 = false)
    (hit : keyTest cfg p fields it = true)
    (hp : get_path cfg key fields = .ok p) :
    get_key cfg p fields = .ok key := by
  simp only [get_key, hsplit,
    find?_first (keyTest cfg p fields) pre post it hpre hit, hkey]


/-- Witness for C3 on the lazy fixture config: its single node is first
and matches, and `get_key` of the `get_path` output returns `"path"`. -/
theorem C3_get_key_first_witness :
    get_key cfgLazy "path/to/003/test_other_test" stdFields = .ok "path" := by
  exact C3_get_key_first cfgLazy "path" stdFields "path/to/003/test_other_test"
    [] [] pathNode (by decide) (by decide)
    (fun _ h => absurd h (List.not_mem_nil _)) (by decide) (by decide)


theorem splitAtSlash_ne_nil (l : List TAtom) : splitAtSlash l ≠ [] := by
  cases l with
  | nil => simp [splitAtSlash]
  | cons a rest =>
      rw [splitAtSlash]
      by_cases ha : a = slashA
      · rw [if_pos ha]; simp
      · rw [if_neg ha]
        cases splitAtSlash rest <;> simp


theorem joinSlash_cons_cons (c : List TAtom) (d : List TAtom)
    (t : List (List TAtom)) (a : TAtom) :
    joinSlash ((a :: c) :: d :: t) = a :: joinSlash (c :: d :: t) := rfl


theorem joinSlash_splitAtSlash (l : List TAtom) :
    joinSlash (splitAtSlash l) = l := by
  induction l with
  | nil => rfl
  | cons a rest ih =>
      rw [splitAtSlash]
      by_cases ha : a = slashA
      · rw [if_pos ha]
        cases hs : splitAtSlash rest with
        | nil => exact absurd hs (splitAtSlash_ne_nil rest)
        | cons c t =>
            rw [hs] at ih
            show slashA :: joinSlash (c :: t) = a :: rest
            rw [ih, ha]
      · rw [if_neg ha]
        cases hs : splitAtSlash rest with
        | nil => exact absurd hs (splitAtSlash_ne_nil rest)
        | cons c t =>
            rw [hs] at ih
            cases t with
            | nil =>
                have hc : c = rest := ih
                show a :: c = a :: rest
                rw [hc]
            | cons d t2 =>
                rw [joinSlash_cons_cons, ih]


theorem exceptMapM_cons_shape {α β : Type} (f : α → Except Err β) (a : α)
    (l : List α) (xs : List β) (h : (a :: l).mapM f = .ok xs) :
    ∃ y ys, xs = y :: ys ∧ f a = .ok y ∧ l.mapM f = .ok ys := by
  rw [List.mapM_cons] at h
  cases hfa : f a with
  | error e =>
      rw [hfa] at h
      cases h
  | ok y =>
      rw [hfa] at h
      cases hl : l.mapM f with
      | error e =>
          rw [hl] at h
          cases h
      | ok ys =>
          rw [hl] at h
          injection h with h
          exact ⟨y, ys, h.symm, rfl, rfl⟩


theorem exceptMapM_length {α β : Type} (f : α → Except Err β) :
    ∀ (l : List α) (xs : List β), l.mapM f = .ok xs → xs.length = l.length := by
  intro l
  induction l with
  | nil =>
      intro xs h
      injection h with h
      rw [← h]
      rfl
  | cons a l ih =>
      intro xs h
      obtain ⟨y, ys, rfl, _, hl⟩ := exceptMapM_cons_shape f a l xs h
      simp [ih ys hl]


theorem renderAtoms_joinSlash (cfg : Config)
    (fields : List (String × TemplateValue)) :
    ∀ comps : List (List TAtom),
      renderAtoms cfg fields (joinSlash comps) =
        (comps.mapM (renderAtoms cfg fields)).map joinSlashChars := by
  intro comps
  induction comps with
  | nil => rfl
  | cons c rest ih =>
      cases rest with
      | nil =>
          rw [joinSlash, List.mapM_cons]
          cases hc : renderAtoms cfg fields c with
          | error e => rfl
          | ok x => rfl
      | cons d t =>
          have hj : joinSlash (c :: d :: t) = c ++ slashA :: joinSlash (d :: t) :=
            rfl
          rw [hj, renderAtoms_append, List.mapM_cons]
          cases hc : renderAtoms cfg fields c with
          | error e => rfl
          | ok x =>
              have hrest : renderAtoms cfg fields (slashA :: joinSlash (d :: t)) =
                  (renderAtoms cfg fields (joinSlash (d :: t))).map ('/' :: ·) := by
                rw [show (slashA :: joinSlash (d :: t)) =
                    TAtom.chr '/' :: joinSlash (d :: t) from rfl]
                rfl
              rw [hrest, ih]
              cases hm : (d :: t).mapM (renderAtoms cfg fields) with
              | error e => rfl
              | ok ys =>
                  obtain ⟨y, ys2, rfl, _, _⟩ :=
                    exceptMapM_cons_shape (renderAtoms cfg fields) d t ys hm
                  rfl


theorem topoGo_perm : ∀ (fuel : Nat) (acc rem : List PathItem),
    (topoGo fuel acc rem).Perm (acc ++ rem) := by
  intro fuel
  induction fuel with
  | zero => intro acc rem; exact List.Perm.refl _
  | succ fuel ih =>
      intro acc rem
      rw [topoGo]
      by_cases hready : rem.filter (readyB rem) = []
      · rw [if_pos hready]
      · rw [if_neg hready]
        refine (ih _ _).trans ?_
        rw [List.append_assoc]
        refine List.Perm.append_left acc ?_
        exact List.filter_append_perm (readyB rem) rem


theorem topoOrder_perm (l : List PathItem) : (topoOrder l).Perm l :=
  topoGo_perm l.length [] l


theorem mem_topoOrder (l : List PathItem) (x : PathItem) :
    x ∈ topoOrder l ↔ x ∈ l :=
  (topoOrder_perm l).mem_iff


theorem mem_dedupA_of_mem {α : Type} [DecidableEq α] :
    ∀ (fuel : Nat) (l : List α) (x : α), l.length ≤ fuel → x ∈ l →
      x ∈ dedupA fuel l := by
  intro fuel
  induction fuel with
  | zero =>
      intro l x hlen hx
      interval_cases hl : l.length
      · rw [List.length_eq_zero] at hl
        subst hl
        cases hx
  | succ fuel ih =>
      intro l x hlen hx
      cases l with
      | nil => cases hx
      | cons y ys =>
          rw [dedupA]
          by_cases hxy : x = y
          · rw [hxy]; exact List.mem_cons_self _ _
          · cases hx with
            | head => exact absurd rfl hxy
            | tail _ hx =>
                refine List.mem_cons_of_mem _ (ih _ x ?_ ?_)
                · calc (ys.filter fun z => decide (z ≠ y)).length
                      ≤ ys.length := List.length_filter_le _ _
                    _ ≤ fuel := by
                        simp only [List.length_cons] at hlen
                        omega
                · exact List.mem_filter.mpr ⟨hx, by simp [hxy]⟩


theorem mem_dedupF_iff {α : Type} [DecidableEq α] (l : List α) (x : α) :
    x ∈ dedupF l ↔ x ∈ l :=
  ⟨mem_dedupF l x, mem_dedupA_of_mem l.length l x le_rfl⟩


theorem nodup_dedupA {α : Type} [DecidableEq α] :
    ∀ (fuel : Nat) (l : List α), l.length ≤ fuel → (dedupA fuel l).Nodup := by
  intro fuel
  induction fuel with
  | zero =>
      intro l hlen
      interval_cases hl : l.length
      · rw [List.length_eq_zero] at hl
        subst hl
        exact List.nodup_nil
  | succ fuel ih =>
      intro l hlen
      cases l with
      | nil => exact List.nodup_nil
      | cons y ys =>
          rw [dedupA]
          refine List.nodup_cons.mpr ⟨?_, ?_⟩
          · intro hy
            have := mem_dedupA _ _ _ hy
            have := (List.mem_filter.mp this).2
            simp at this
          · refine ih _ ?_
            calc (ys.filter fun z => decide (z ≠ y)).length
                ≤ ys.length := List.length_filter_le _ _
              _ ≤ fuel := by
                  simp only [List.length_cons] at hlen
                  omega


theorem nodup_dedupF {α : Type} [DecidableEq α] (l : List α) :
    (dedupF l).Nodup :=
  nodup_dedupA l.length l le_rfl


theorem flatMap_eq_nil_of_forall {α β : Type} (f : α → List β) :
    ∀ l : List α, (∀ x ∈ l, f x = []) → l.flatMap f = [] := by
  intro l
  induction l with
  | nil => intro _; rfl
  | cons x xs ih =>
      intro h
      rw [List.flatMap_cons, h x (List.mem_cons_self x xs),
        ih (fun y hy => h y (List.mem_cons_of_mem x hy))]
      rfl


theorem rungs_eq_nil_of_not_resolvable (cfg : Config)
    (fields : List (String × TemplateValue)) (it : PathItem)
    (h : resolvableB cfg fields it = false) : rungs cfg fields it = [] := by
  rw [rungs]
  cases hrc : renderedComps cfg fields it with
  | none => rfl
  | some rc =>
      rw [resolvableB, hrc] at h
      cases h


theorem filter_eq_append_cons {α : Type} (pred : α → Bool) :
    ∀ (xs a2 b2 : List α) (q : α), xs.filter pred = a2 ++ q :: b2 →
      ∃ a b, xs = a ++ q :: b ∧ a.filter pred = a2 := by
  intro xs
  induction xs with
  | nil =>
      intro a2 b2 q h
      rw [List.filter_nil] at h
      exact absurd h.symm (List.append_ne_nil_of_right_ne_nil a2 (by simp))
  | cons x xs ih =>
      intro a2 b2 q h
      by_cases hx : pred x = true
      · rw [List.filter_cons_of_pos hx] at h
        cases a2 with
        | nil =>
            rw [List.nil_append] at h
            injection h with h1 h2
            exact ⟨[], xs, by rw [h1]; rfl, rfl⟩
        | cons y a2x =>
            rw [List.cons_append] at h
            injection h with h1 h2
            obtain ⟨a, b, hxs, hfa⟩ := ih a2x b2 q h2
            refine ⟨x :: a, b, by rw [hxs, List.cons_append], ?_⟩
            rw [List.filter_cons_of_pos hx, hfa, h1]
      · rw [List.filter_cons_of_neg hx] at h
        obtain ⟨a, b, hxs, hfa⟩ := ih a2 b2 q h
        refine ⟨x :: a, b, by rw [hxs, List.cons_append], ?_⟩
        rw [List.filter_cons_of_neg hx, hfa]


theorem dedupA_order {α : Type} [DecidableEq α] (p q : α) (hpq : p ≠ q) :
    ∀ (fuel : Nat) (l : List α), l.length ≤ fuel → q ∈ l →
      (∀ a b, l = a ++ q :: b → p ∈ a) →
      firstIdx p (dedupA fuel l) < firstIdx q (dedupA fuel l) := by
  intro fuel
  induction fuel with
  | zero =>
      intro l hlen hq _
      rw [Nat.le_zero, List.length_eq_zero] at hlen
      subst hlen
      cases hq
  | succ fuel ih =>
      intro l hlen hq hsplit
      cases l with
      | nil => cases hq
      | cons x xs =>
          rw [dedupA]
          have hxq : x ≠ q := by
            intro hxq
            have := hsplit [] xs (by rw [hxq]; rfl)
            cases this
          have hqxs : q ∈ xs := by
            cases hq with
            | head => exact absurd rfl hxq
            | tail _ h => exact h
          by_cases hxp : x = p
          · rw [firstIdx, if_pos hxp, firstIdx, if_neg hxq]
            omega
          · have hmem : q ∈ xs.filter fun z => decide (z ≠ x) :=
              List.mem_filter.mpr ⟨hqxs, by simp [Ne.symm hxq]⟩
            have hsplit2 : ∀ a b,
                xs.filter (fun z => decide (z ≠ x)) = a ++ q :: b → p ∈ a := by
              intro a b hab
              obtain ⟨a0, b0, hxs, hfa⟩ :=
                filter_eq_append_cons _ xs a b q hab
              have hp0 : p ∈ x :: a0 :=
                hsplit (x :: a0) b0 (by rw [hxs, List.cons_append])
              have hpa0 : p ∈ a0 := by
                cases hp0 with
                | head => exact absurd rfl hxp
                | tail _ h => exact h
              rw [← hfa]
              exact List.mem_filter.mpr
                ⟨hpa0, by simp [show p ≠ x from fun h => hxp h.symm]⟩
            have hlen2 : (xs.filter fun z => decide (z ≠ x)).length ≤ fuel := by
              calc (xs.filter fun z => decide (z ≠ x)).length
                  ≤ xs.length := List.length_filter_le _ _
                _ ≤ fuel := by
                    simp only [List.length_cons] at hlen
                    omega
            have hrec := ih _ hlen2 hmem hsplit2
            rw [firstIdx, if_neg hxp, firstIdx, if_neg hxq]
            omega


theorem flatMap_precedes {α β : Type} (f : α → List β) (p q : β) :
    ∀ (l : List α), (∀ x ∈ l, ∀ c1 c2, f x = c1 ++ q :: c2 → p ∈ c1) →
      ∀ a b, l.flatMap f = a ++ q :: b → p ∈ a := by
  intro l
  induction l with
  | nil =>
      intro _ a b h
      rw [List.flatMap_nil] at h
      exact absurd h.symm (List.append_ne_nil_of_right_ne_nil a (by simp))
  | cons x xs ih =>
      intro hblk a b h
      rw [List.flatMap_cons] at h
      rcases List.append_eq_append_iff.mp h with ⟨w, hw1, hw2⟩ | ⟨w, hw1, hw2⟩
      · -- a = f x ++ w and the occurrence lies in the tail flatMap
        have hp : p ∈ w :=
          ih (fun y hy => hblk y (List.mem_cons_of_mem x hy)) w b hw2
        rw [hw1]
        exact List.mem_append_right _ hp
      · -- f x = a ++ w and q :: b = w ++ tail
        cases w with
        | nil =>
            rw [List.nil_append] at hw2
            have := ih (fun y hy => hblk y (List.mem_cons_of_mem x hy))
              [] b hw2.symm
            cases this
        | cons y w2 =>
            rw [List.cons_append] at hw2
            injection hw2 with hy hw2
            exact hblk x (List.mem_cons_self x xs) a w2 (by rw [hw1, ← hy])


theorem getD_append_cons {α : Type} [Inhabited α] (c1 c2 : List α) (q d : α) :
    (c1 ++ q :: c2).getD c1.length d = q := by
  induction c1 with
  | nil => rfl
  | cons y ys ih => simpa using ih


/-- The extracted form of `rungChainInjB`. -/
theorem rungChainInjB_spec (cfg : Config)
    (fields : List (String × TemplateValue))
    (h : rungChainInjB cfg fields = true) :
    ∀ it1 ∈ cfg.items, ∀ it2 ∈ cfg.items, ∀ j1 j2 : Nat,
      j1 < (rungs cfg fields it1).length → j2 < (rungs cfg fields it2).length →
      (rungs cfg fields it1).getD j1 "" = (rungs cfg fields it2).getD j2 "" →
      (rungs cfg fields it1).take (j1 + 1) =
        (rungs cfg fields it2).take (j2 + 1) := by
  intro it1 h1 it2 h2 j1 j2 hj1 hj2 heq
  rw [rungChainInjB, List.all_eq_true] at h
  have h := h it1 h1
  rw [List.all_eq_true] at h
  have h := h it2 h2
  rw [List.all_eq_true] at h
  have h := h j1 (List.mem_range.mpr hj1)
  rw [List.all_eq_true] at h
  have h := h j2 (List.mem_range.mpr hj2)
  rw [Bool.or_eq_true, Bool.not_eq_true'] at h
  cases h with
  | inl h =>
      rw [decide_eq_false_iff_not] at h
      exact absurd heq h
  | inr h => exact of_decide_eq_true h


theorem get_path_mem_rungs (cfg : Config)
    (fields : List (String × TemplateValue)) (it : PathItem) (p : String)
    (hlk : lookupItem cfg it.key = some it)
    (hp : get_path cfg it.key fields = .ok p) :
    p ∈ rungs cfg fields it := by
  cases hch : chain cfg it with
  | none =>
      simp only [get_path, hlk, hch] at hp
      exact Except.noConfusion hp
  | some ch =>
      cases hat : chainAtoms ch with
      | none =>
          simp only [get_path, hlk, hch, hat] at hp
          exact Except.noConfusion hp
      | some atoms =>
          cases hrd : renderAtoms cfg fields atoms with
          | error e =>
              simp only [get_path, hlk, hch, hat, hrd, Except.map] at hp
              exact Except.noConfusion hp
          | ok cs =>
              simp only [get_path, hlk, hch, hat, hrd, Except.map] at hp
              have hps : p = ⟨cs⟩ := by
                injection hp with hp
                exact hp.symm
              have hjoin := renderAtoms_joinSlash cfg fields (splitAtSlash atoms)
              rw [joinSlash_splitAtSlash] at hjoin
              rw [hrd] at hjoin
              cases hm : (splitAtSlash atoms).mapM (renderAtoms cfg fields) with
              | error e =>
                  rw [hm] at hjoin
                  cases hjoin
              | ok rc =>
                  rw [hm] at hjoin
                  simp only [Except.map] at hjoin
                  injection hjoin with hjoin
                  have hrcomps : renderedComps cfg fields it = some rc := by
                    simp only [renderedComps, nodeComps, hch, hat, hm]
                  have hlen1 : 1 ≤ rc.length := by
                    rw [exceptMapM_length _ _ _ hm]
                    cases hcc : splitAtSlash atoms with
                    | nil => exact absurd hcc (splitAtSlash_ne_nil atoms)
                    | cons c t => simp
                  rw [rungs, hrcomps]
                  refine List.mem_map.mpr ⟨rc.length, ?_, ?_⟩
                  · rw [List.mem_range']
                    exact ⟨rc.length - 1, by omega, by omega⟩
                  · rw [List.take_length, hps, hjoin]


/-- C2 (amended theorem): `get_workspace` returns `[]` when no node is
resolvable (no ancestor entries at all); its elements are exactly the
component-wise rungs of the resolvable nodes (one entry per unique rung,
hence when every node is resolvable: all ancestor rungs plus each node's
own resolved path, which is its last rung); there are no duplicates; and,
when distinct rung chains never collide on a rung string, rungs of one
node appear in ancestor-first order (topological order). -/
theorem C2_get_workspace (cfg : Config)
    (fields : List (String × TemplateValue)) :
    ((∀ it ∈ cfg.items, resolvableB cfg fields it = false) →
      get_workspace cfg fields = []) ∧
    (∀ s, s ∈ get_workspace cfg fields ↔
      ∃ it ∈ cfg.items, s ∈ rungs cfg fields it) ∧
    (get_workspace cfg fields).Nodup ∧
    (∀ it ∈ cfg.items, ∀ p : String, lookupItem cfg it.key = some it →
      get_path cfg it.key fields = .ok p → p ∈ get_workspace cfg fields) ∧
    (rungChainInjB cfg fields = true →
      ∀ it ∈ cfg.items, ∀ j1 j2 : Nat, j1 < j2 →
        j2 < (rungs cfg fields it).length →
        firstIdx ((rungs cfg fields it).getD j1 "") (get_workspace cfg fields) <
          firstIdx ((rungs cfg fields it).getD j2 "")
            (get_workspace cfg fields)) := by
  refine ⟨?_, ?_, ?_, ?_, ?_⟩
  · intro hall
    have hnil : (topoOrder cfg.items).flatMap (rungs cfg fields) = [] :=
      flatMap_eq_nil_of_forall _ _ (fun x hx =>
        rungs_eq_nil_of_not_resolvable cfg fields x
          (hall x ((mem_topoOrder _ _).mp hx)))
    rw [get_workspace, hnil]
    rfl
  · intro s
    rw [get_workspace, mem_dedupF_iff, List.mem_flatMap]
    constructor
    · rintro ⟨it, hit, hs⟩
      exact ⟨it, (mem_topoOrder _ _).mp hit, hs⟩
    · rintro ⟨it, hit, hs⟩
      exact ⟨it, (mem_topoOrder _ _).mpr hit, hs⟩
  · exact nodup_dedupF _
  · intro it hit p hlk hp
    rw [get_workspace, mem_dedupF_iff]
    exact List.mem_flatMap.mpr ⟨it, (mem_topoOrder _ _).mpr hit,
      get_path_mem_rungs cfg fields it p hlk hp⟩
  · intro hinj it hit j1 j2 hj12 hj2
    have hj1 : j1 < (rungs cfg fields it).length := lt_trans hj12 hj2
    have hpq : (rungs cfg fields it).getD j1 "" ≠
        (rungs cfg fields it).getD j2 "" := by
      intro he
      have htake := rungChainInjB_spec cfg fields hinj it hit it hit
        j1 j2 hj1 hj2 he
      have hlen := congrArg List.length htake
      rw [List.length_take, List.length_take] at hlen
      omega
    have hqmem : (rungs cfg fields it).getD j2 "" ∈
        (topoOrder cfg.items).flatMap (rungs cfg fields) := by
      refine List.mem_flatMap.mpr ⟨it, (mem_topoOrder _ _).mpr hit, ?_⟩
      rw [List.getD_eq_getElem?_getD, List.getElem?_eq_getElem hj2]
      exact List.getElem_mem hj2
    have hblk : ∀ x ∈ topoOrder cfg.items, ∀ c1 c2,
        rungs cfg fields x = c1 ++ (rungs cfg fields it).getD j2 "" :: c2 →
        (rungs cfg fields it).getD j1 "" ∈ c1 := by
      intro x hx c1 c2 hsplit
      have hxmem := (mem_topoOrder _ _).mp hx
      have hc1len : c1.length < (rungs cfg fields x).length := by
        rw [hsplit, List.length_append, List.length_cons]
        omega
      have hgx : (rungs cfg fields x).getD c1.length "" =
          (rungs cfg fields it).getD j2 "" := by
        rw [hsplit]
        exact getD_append_cons _ _ _ _
      have htake := rungChainInjB_spec cfg fields hinj x hxmem it hit
        c1.length j2 hc1len hj2 hgx
      have hlen2 := congrArg List.length htake
      rw [List.length_take, List.length_take] at hlen2
      have hceq : c1.length = j2 := by omega
      have hgp : (rungs cfg fields x).getD j1 "" =
          (rungs cfg fields it).getD j1 "" := by
        have h1 := congrArg (fun l => l.getD j1 "") htake
        simp only [List.getD_eq_getElem?_getD] at h1 ⊢
        rw [List.getElem?_take_of_lt (by omega),
          List.getElem?_take_of_lt (by omega)] at h1
        exact h1
      have hc1 : c1 = (rungs cfg fields x).take c1.length := by
        rw [hsplit]
        exact (List.take_left _ _).symm
      rw [hc1]
      have hj1x : j1 < (rungs cfg fields x).length := by omega
      rw [← hgp, List.getD_eq_getElem?_getD, List.getElem?_eq_getElem hj1x]
      have : ((rungs cfg fields x).take c1.length)[j1]? =
          some ((rungs cfg fields x)[j1]) := by
        rw [List.getElem?_take_of_lt (by omega), List.getElem?_eq_getElem hj1x]
      exact List.getElem?_mem this
    exact dedupA_order _ _ hpq _ _ le_rfl hqmem
      (flatMap_precedes (rungs cfg fields) _ _ (topoOrder cfg.items) hblk)


/-- C2 (counterexample): with `root = "/a/b"`, the workspace is
`["/a/b", "/a/b/c"]`.  `"/a"` is a slash-separated prefix of the
resolved path `"/a/b/c"` but is not returned: rungs are per template
component, not per slash of the path string. -/
theorem C2_counterexample :
    get_workspace cfgRootVal [("root", .str "/a/b")] = ["/a/b", "/a/b/c"] ∧
    "/a" ++ "/b/c" = "/a/b/c" ∧
    ¬ ("/a" ∈ get_workspace cfgRootVal [("root", .str "/a/b")]) := by
  decide


/-- Witness for C2 on the lazy fixture: the concrete workspace list, the
empty result on an unresolvable field map, and the rung ordering between
the root rung and a deeper rung. -/
theorem C2_get_workspace_witness :
    get_workspace cfgLazy [] = [] ∧
    (firstIdx ((rungs cfgLazy stdFields pathNode).getD 0 "")
        (get_workspace cfgLazy stdFields) <
      firstIdx ((rungs cfgLazy stdFields pathNode).getD 2 "")
        (get_workspace cfgLazy stdFields)) := by
  constructor
  · exact (C2_get_workspace cfgLazy []).1 (by decide)
  · exact (C2_get_workspace cfgLazy stdFields).2.2.2.2 (by decide)
      pathNode (by decide) 0 2 (by decide) (by decide)


theorem deferStep_subset (cfg : Config) (s : List PathItem) (x : PathItem)
    (h : x ∈ deferStep cfg s) : x ∈ s :=
  List.mem_of_mem_filter h


theorem mem_deferStep_of_nondeferred (cfg : Config) (s : List PathItem)
    (x : PathItem) (hx : x ∈ s) (hnd : x.deferred = false) :
    x ∈ deferStep cfg s := by
  rw [deferStep, List.mem_filter]
  exact ⟨hx, by rw [hnd]; rfl⟩


theorem deferStep_idem (cfg : Config) (s : List PathItem) :
    deferStep cfg (deferStep cfg s) = deferStep cfg s := by
  apply List.filter_eq_self.mpr
  intro it hit
  have hcond := (List.mem_filter.mp hit).2
  rw [Bool.or_eq_true] at hcond
  cases hcond with
  | inl h => rw [Bool.or_eq_true]; exact Or.inl h
  | inr h =>
      rw [List.any_eq_true] at h
      obtain ⟨d, hd, hdprop⟩ := h
      rw [Bool.and_eq_true] at hdprop
      rw [Bool.or_eq_true]
      refine Or.inr (List.any_eq_true.mpr ⟨d, ?_, ?_⟩)
      · exact mem_deferStep_of_nondeferred cfg s d hd
          (by
            have := hdprop.1
            rw [Bool.not_eq_true'] at this
            exact this)
      · rw [Bool.and_eq_true]
        exact hdprop


theorem deferFix_of_fix (cfg : Config) :
    ∀ (fuel : Nat) (s : List PathItem), deferStep cfg s = s →
      deferFix fuel cfg s = s := by
  intro fuel
  induction fuel with
  | zero => intro s _; rfl
  | succ fuel _ =>
      intro s h
      rw [deferFix, if_pos h]


theorem deferFix_succ (cfg : Config) (fuel : Nat) (s : List PathItem) :
    deferFix (fuel + 1) cfg s = deferStep cfg s := by
  rw [deferFix]
  by_cases h : deferStep cfg s = s
  · rw [if_pos h, h]
  · rw [if_neg h]
    cases fuel with
    | zero => rfl
    | succ fuel =>
        rw [deferFix, if_pos (deferStep_idem cfg s)]


theorem dispatchSet_eq (cfg : Config)
    (fields : List (String × TemplateValue)) :
    dispatchSet cfg fields =
      deferStep cfg (cfg.items.filter (resolvableB cfg fields)) := by
  rw [dispatchSet]
  cases hl : cfg.items with
  | nil => rfl
  | cons x xs =>
      rw [hl, List.length_cons] at *
      exact deferFix_succ cfg xs.length _


theorem dispatchSet_subset (cfg : Config)
    (fields : List (String × TemplateValue)) (x : PathItem)
    (h : x ∈ dispatchSet cfg fields) :
    x ∈ cfg.items ∧ resolvableB cfg fields x = true := by
  rw [dispatchSet_eq] at h
  have := deferStep_subset cfg _ x h
  exact ⟨List.mem_of_mem_filter this, (List.mem_filter.mp this).2⟩


theorem mem_dispatched_iff (cfg : Config)
    (fields : List (String × TemplateValue)) (x : PathItem) :
    x ∈ dispatched cfg fields ↔ x ∈ dispatchSet cfg fields := by
  rw [dispatched, create_workspace]
  constructor
  · intro h
    obtain ⟨r, hr, hrx⟩ := List.mem_map.mp h
    obtain ⟨y, hy, hyr⟩ := List.mem_filterMap.mp hr
    cases hrc : renderedComps cfg fields y with
    | none => rw [hrc] at hyr; cases hyr
    | some rc =>
        rw [hrc] at hyr
        injection hyr with hyr
        rw [← hyr] at hrx
        simp only at hrx
        rw [← hrx]
        exact (mem_topoOrder _ _).mp hy
  · intro h
    have hres := (dispatchSet_subset cfg fields x h).2
    rw [resolvableB] at hres
    cases hrc : renderedComps cfg fields x with
    | none => rw [hrc] at hres; cases hres
    | some rc =>
        refine List.mem_map.mpr ⟨⟨x, ⟨joinSlashChars rc⟩⟩, ?_, rfl⟩
        refine List.mem_filterMap.mpr ⟨x, (mem_topoOrder _ _).mpr h, ?_⟩
        rw [hrc]


theorem chainF_mono (cfg : Config) :
    ∀ (fuel : Nat) (it : PathItem) (l : List PathItem),
      chainF cfg fuel it = some l → chainF cfg (fuel + 1) it = some l := by
  intro fuel
  induction fuel with
  | zero => intro it l h; cases h
  | succ fuel ih =>
      intro it l h
      rw [chainF] at h
      rw [chainF]
      cases hp : it.parent with
      | none =>
          simp only [hp] at h ⊢
          exact h
      | some p =>
          simp only [hp] at h ⊢
          cases hlk : lookupItem cfg p with
          | none =>
              simp only [hlk] at h
              exact Option.noConfusion h
          | some pit =>
              simp only [hlk] at h ⊢
              cases hc : chainF cfg fuel pit with
              | none =>
                  simp only [hc, Option.map_none'] at h
                  exact Option.noConfusion h
              | some lp =>
                  simp only [hc, Option.map_some'] at h
                  rw [ih pit lp hc, Option.map_some']
                  exact h


theorem chainF_last (cfg : Config) :
    ∀ (fuel : Nat) (it : PathItem) (l : List PathItem),
      chainF cfg fuel it = some l → ∃ l2, l = l2 ++ [it] := by
  intro fuel
  cases fuel with
  | zero => intro it l h; cases h
  | succ fuel =>
      intro it l h
      rw [chainF] at h
      cases hp : it.parent with
      | none =>
          simp only [hp] at h
          injection h with h
          exact ⟨[], by rw [← h, List.nil_append]⟩
      | some p =>
          simp only [hp] at h
          cases hlk : lookupItem cfg p with
          | none =>
              simp only [hlk] at h
              exact Option.noConfusion h
          | some pit =>
              simp only [hlk] at h
              cases hc : chainF cfg fuel pit with
              | none =>
                  simp only [hc, Option.map_none'] at h
                  exact Option.noConfusion h
              | some lp =>
                  simp only [hc, Option.map_some'] at h
                  injection h with h
                  exact ⟨lp, h.symm⟩


theorem chainF_mem_items (cfg : Config) :
    ∀ (fuel : Nat) (it : PathItem) (l : List PathItem),
      chainF cfg fuel it = some l → ∀ x ∈ l, x = it ∨ x ∈ cfg.items := by
  intro fuel
  induction fuel with
  | zero => intro it l h; cases h
  | succ fuel ih =>
      intro it l h x hx
      rw [chainF] at h
      cases hp : it.parent with
      | none =>
          simp only [hp] at h
          injection h with h
          rw [← h] at hx
          cases hx with
          | head => exact Or.inl rfl
          | tail _ hx2 => cases hx2
      | some p =>
          simp only [hp] at h
          cases hlk : lookupItem cfg p with
          | none =>
              simp only [hlk] at h
              exact Option.noConfusion h
          | some pit =>
              simp only [hlk] at h
              cases hc : chainF cfg fuel pit with
              | none =>
                  simp only [hc, Option.map_none'] at h
                  exact Option.noConfusion h
              | some lp =>
                  simp only [hc, Option.map_some'] at h
                  injection h with h
                  rw [← h] at hx
                  rcases List.mem_append.mp hx with hx1 | hx2
                  · cases ih pit lp hc x hx1 with
                    | inl he =>
                        rw [he]
                        exact Or.inr (List.mem_of_find?_eq_some hlk)
                    | inr hm => exact Or.inr hm
                  · cases hx2 with
                    | head => exact Or.inl rfl
                    | tail _ h2 => cases h2


theorem chainF_take (cfg : Config) :
    ∀ (fuel : Nat) (it : PathItem) (l : List PathItem),
      chainF cfg fuel it = some l →
      ∀ i (hi : i < l.length),
        chainF cfg fuel (l[i]) = some (l.take (i + 1)) := by
  intro fuel
  induction fuel with
  | zero => intro it l h; cases h
  | succ fuel ih =>
      intro it l h i hi
      rw [chainF] at h
      cases hp : it.parent with
      | none =>
          simp only [hp] at h
          injection h with h
          subst h
          simp only [List.length_cons, List.length_nil] at hi
          interval_cases i
          simp only [List.getElem_cons_zero, List.take_succ_cons, List.take_nil]
          rw [chainF]
          simp only [hp]
      | some p =>
          simp only [hp] at h
          cases hlk : lookupItem cfg p with
          | none =>
              simp only [hlk] at h
              exact Option.noConfusion h
          | some pit =>
              simp only [hlk] at h
              cases hc : chainF cfg fuel pit with
              | none =>
                  simp only [hc, Option.map_none'] at h
                  exact Option.noConfusion h
              | some lp =>
                  simp only [hc, Option.map_some'] at h
                  injection h with h
                  subst h
                  rw [List.length_append, List.length_cons, List.length_nil] at hi
                  by_cases hilt : i < lp.length
                  · rw [List.getElem_append_left hilt]
                    have hstep := chainF_mono cfg fuel _ _ (ih pit lp hc i hilt)
                    rw [hstep]
                    rw [List.take_append_of_le_length (by omega)]
                  · have hieq : i = lp.length := by omega
                    subst hieq
                    rw [List.getElem_append_right (le_refl lp.length)]
                    simp only [Nat.sub_self, List.getElem_cons_zero]
                    have hlen : (lp ++ [it]).length = lp.length + 1 := by
                      rw [List.length_append, List.length_cons, List.length_nil]
                    rw [show lp.length + 1 = (lp ++ [it]).length from hlen.symm,
                      List.take_length]
                    rw [chainF]
                    simp only [hp, hlk, hc, Option.map_some']



theorem find?_key_self (x : PathItem) :
    ∀ (l : List PathItem), (l.map (·.key)).Nodup → x ∈ l →
      l.find? (fun it => it.key == x.key) = some x := by
  intro l
  induction l with
  | nil => intro _ hx; cases hx
  | cons y ys ih =>
      intro hkeys hx
      rw [List.map_cons, List.nodup_cons] at hkeys
      by_cases hyx : y.key = x.key
      · have hxy : x = y := by
          cases hx with
          | head => rfl
          | tail _ h2 =>
              exact absurd (hyx ▸ List.mem_map_of_mem (·.key) h2) hkeys.1
        rw [hxy]
        exact List.find?_cons_of_pos ys (by simp)
      · have hx2 : x ∈ ys := by
          cases hx with
          | head => exact absurd rfl hyx
          | tail _ h2 => exact h2
        rw [List.find?_cons_of_neg ys (by simp [hyx])]
        exact ih hkeys.2 hx2


theorem lookupItem_self (cfg : Config)
    (hkeys : (cfg.items.map (·.key)).Nodup) (x : PathItem)
    (hx : x ∈ cfg.items) : lookupItem cfg x.key = some x :=
  find?_key_self x cfg.items hkeys hx


theorem optionMapM_cons_shape {α β : Type} (f : α → Option β) (a : α)
    (l : List α) (xs : List β) (h : (a :: l).mapM f = some xs) :
    ∃ y ys, xs = y :: ys ∧ f a = some y ∧ l.mapM f = some ys := by
  rw [List.mapM_cons] at h
  cases hfa : f a with
  | none => rw [hfa] at h; cases h
  | some y =>
      rw [hfa] at h
      cases hl : l.mapM f with
      | none => rw [hl] at h; cases h
      | some ys =>
          rw [hl] at h
          injection h with h
          exact ⟨y, ys, h.symm, rfl, rfl⟩


theorem optionMapM_append {α β : Type} (f : α → Option β) :
    ∀ (l1 l2 : List α) (ts : List β), (l1 ++ l2).mapM f = some ts →
      ∃ t1 t2, ts = t1 ++ t2 ∧ l1.mapM f = some t1 ∧ l2.mapM f = some t2 := by
  intro l1
  induction l1 with
  | nil =>
      intro l2 ts h
      exact ⟨[], ts, rfl, rfl, h⟩
  | cons a l1 ih =>
      intro l2 ts h
      rw [List.cons_append] at h
      obtain ⟨y, ys, rfl, hfa, hrest⟩ := optionMapM_cons_shape f a _ ts h
      obtain ⟨t1, t2, rfl, h1, h2⟩ := ih l2 ys hrest
      refine ⟨y :: t1, t2, rfl, ?_, h2⟩
      rw [List.mapM_cons, hfa, h1]
      rfl


theorem joinT_cons_nil (x : List TAtom) (ls : List (List TAtom))
    (h : joinT ls = []) : joinT (x :: ls) = x := by
  rw [joinT, h]


theorem joinT_cons_cons2 (x : List TAtom) (ls : List (List TAtom))
    (r : TAtom) (rs : List TAtom) (h : joinT ls = r :: rs) :
    joinT (x :: ls) = if x = [] then r :: rs else x ++ slashA :: r :: rs := by
  rw [joinT, h]


theorem joinT_append (l1 l2 : List (List TAtom)) :
    ∃ suf, joinT (l1 ++ l2) = joinT l1 ++ suf := by
  induction l1 with
  | nil => exact ⟨joinT l2, rfl⟩
  | cons x l1 ih =>
      obtain ⟨suf, hsuf⟩ := ih
      rw [List.cons_append]
      cases hj1 : joinT l1 with
      | nil =>
          rw [hj1, List.nil_append] at hsuf
          cases hs : suf with
          | nil =>
              rw [hs] at hsuf
              refine ⟨[], ?_⟩
              rw [joinT_cons_nil x _ hsuf, joinT_cons_nil x _ hj1,
                List.append_nil]
          | cons r rs =>
              rw [hs] at hsuf
              by_cases hx : x = []
              · refine ⟨r :: rs, ?_⟩
                rw [joinT_cons_cons2 x _ r rs hsuf, if_pos hx,
                  joinT_cons_nil x _ hj1, hx, List.nil_append]
              · refine ⟨slashA :: r :: rs, ?_⟩
                rw [joinT_cons_cons2 x _ r rs hsuf, if_neg hx,
                  joinT_cons_nil x _ hj1]
      | cons j js =>
          have hsuf2 : joinT (l1 ++ l2) = j :: (js ++ suf) := by
            rw [hsuf, hj1, List.cons_append]
          by_cases hx : x = []
          · refine ⟨suf, ?_⟩
            rw [joinT_cons_cons2 x _ j (js ++ suf) hsuf2, if_pos hx,
              joinT_cons_cons2 x _ j js hj1, if_pos hx, List.cons_append]
          · refine ⟨suf, ?_⟩
            rw [joinT_cons_cons2 x _ j (js ++ suf) hsuf2, if_neg hx,
              joinT_cons_cons2 x _ j js hj1, if_neg hx]
            rw [List.append_assoc]
            rfl


theorem render_of_resolvable (cfg : Config)
    (fields : List (String × TemplateValue)) (it : PathItem)
    (h : resolvableB cfg fields it = true) :
    ∃ ch atoms cs, chain cfg it = some ch ∧ chainAtoms ch = some atoms ∧
      renderAtoms cfg fields atoms = .ok cs := by
  rw [resolvableB] at h
  cases hch : chain cfg it with
  | none =>
      simp only [renderedComps, nodeComps, hch, Option.isSome_none] at h
      exact Bool.noConfusion h
  | some ch =>
      cases hat : chainAtoms ch with
      | none =>
          simp only [renderedComps, nodeComps, hch, hat, Option.isSome_none] at h
          exact Bool.noConfusion h
      | some atoms =>
          cases hm : (splitAtSlash atoms).mapM (renderAtoms cfg fields) with
          | error e =>
              simp only [renderedComps, nodeComps, hch, hat, hm,
                Option.isSome_none] at h
              exact Bool.noConfusion h
          | ok rc =>
              refine ⟨ch, atoms, joinSlashChars rc, rfl, hat, ?_⟩
              have hjoin := renderAtoms_joinSlash cfg fields (splitAtSlash atoms)
              rw [joinSlash_splitAtSlash, hm] at hjoin
              rw [hjoin]
              rfl


theorem resolvable_of_render (cfg : Config)
    (fields : List (String × TemplateValue)) (it : PathItem)
    (ch : List PathItem) (atoms : List TAtom) (cs : List Char)
    (hch : chain cfg it = some ch) (hat : chainAtoms ch = some atoms)
    (hrd : renderAtoms cfg fields atoms = .ok cs) :
    resolvableB cfg fields it = true := by
  have hjoin := renderAtoms_joinSlash cfg fields (splitAtSlash atoms)
  rw [joinSlash_splitAtSlash, hrd] at hjoin
  cases hm : (splitAtSlash atoms).mapM (renderAtoms cfg fields) with
  | error e =>
      rw [hm] at hjoin
      cases hjoin
  | ok rc =>
      rw [resolvableB, renderedComps, nodeComps]
      simp only [hch, hat, hm]
      rfl


theorem resolvable_ancestor (cfg : Config)
    (fields : List (String × TemplateValue)) (d anc : PathItem)
    (hres : resolvableB cfg fields d = true)
    (hdesc : isDescOf cfg d anc = true) :
    resolvableB cfg fields anc = true := by
  obtain ⟨ch, atoms, cs, hch, hat, hrd⟩ := render_of_resolvable cfg fields d hres
  rw [isDescOf, hch] at hdesc
  have hanc : anc ∈ ch.dropLast := of_decide_eq_true hdesc
  obtain ⟨i, hid, hgi⟩ := List.mem_iff_getElem.mp hanc
  have hid2 : i < ch.length := by
    rw [List.length_dropLast] at hid
    omega
  have hgi2 : ch[i] = anc := by
    rw [← hgi, List.getElem_dropLast]
  have htk := chainF_take cfg cfg.items.length d ch hch i hid2
  rw [hgi2] at htk
  -- chainAtoms of the prefix
  rw [chainAtoms] at hat
  cases hts : ch.mapM (fun it => scanT it.template) with
  | none => rw [hts] at hat; cases hat
  | some ts =>
      rw [hts] at hat
      injection hat with hat
      have hsplit : ch = ch.take (i + 1) ++ ch.drop (i + 1) :=
        (List.take_append_drop (i + 1) ch).symm
      rw [hsplit] at hts
      obtain ⟨t1, t2, hts12, hm1, hm2⟩ := optionMapM_append _ _ _ ts hts
      obtain ⟨suf, hsuf⟩ := joinT_append t1 t2
      rw [hts12, hsuf] at hat
      have hrd2 : renderAtoms cfg fields (joinT t1 ++ suf) = .ok cs := by
        rw [hat]; exact hrd
      rw [renderAtoms_append] at hrd2
      cases hr1 : renderAtoms cfg fields (joinT t1) with
      | error e =>
          rw [hr1] at hrd2
          cases hrd2
      | ok cs1 =>
          exact resolvable_of_render cfg fields anc (ch.take (i + 1))
            (joinT t1) cs1 htk (by rw [chainAtoms, hm1]; rfl) hr1


theorem desc_of_parent (cfg : Config) (b a : PathItem) (l : List PathItem)
    (hb : chain cfg b = some l) (hp : b.parent = some a.key)
    (hlk : lookupItem cfg a.key = some a) :
    isDescOf cfg b a = true := by
  rw [isDescOf, hb]
  apply decide_eq_true
  rw [chain] at hb
  cases hfuel : cfg.items.length with
  | zero => rw [hfuel] at hb; cases hb
  | succ n =>
      rw [hfuel, chainF] at hb
      simp only [hp, hlk] at hb
      cases hc : chainF cfg n a with
      | none =>
          rw [hc, Option.map_none'] at hb
          cases hb
      | some la =>
          rw [hc, Option.map_some'] at hb
          injection hb with hb
          obtain ⟨la2, hla2⟩ := chainF_last cfg n a la hc
          rw [← hb, List.dropLast_concat]
          rw [hla2]
          exact List.mem_append_right la2 (List.mem_cons_self a [])


theorem desc_trans (cfg : Config) (d b a : PathItem)
    (hdb : isDescOf cfg d b = true) (hba : isDescOf cfg b a = true) :
    isDescOf cfg d a = true := by
  rw [isDescOf] at hdb ⊢
  cases hcd : chain cfg d with
  | none => rw [hcd] at hdb; cases hdb
  | some l =>
      rw [hcd] at hdb
      apply decide_eq_true
      have hbmem : b ∈ l.dropLast := of_decide_eq_true hdb
      obtain ⟨i, hid, hgi⟩ := List.mem_iff_getElem.mp hbmem
      have hid2 : i < l.length := by
        rw [List.length_dropLast] at hid
        omega
      have hgi2 : l[i] = b := by
        rw [← hgi, List.getElem_dropLast]
      have htk := chainF_take cfg cfg.items.length d l hcd i hid2
      rw [hgi2] at htk
      rw [isDescOf, chain] at hba
      rw [htk] at hba
      have hamem : a ∈ (l.take (i + 1)).dropLast := of_decide_eq_true hba
      rw [List.dropLast_eq_take, List.take_take] at hamem
      have hlen : (l.take (i + 1)).length = i + 1 := by
        rw [List.length_take]
        omega
      rw [hlen] at hamem
      rw [List.dropLast_eq_take]
      have hsub : min (i + 1 - 1) (i + 1) = i := by omega
      rw [hsub] at hamem
      obtain ⟨j, hj, hgj⟩ := List.mem_iff_getElem.mp hamem
      have hjlen : j < i := by
        rw [List.length_take] at hj
        omega
      refine List.mem_iff_getElem.mpr ⟨j, ?_, ?_⟩
      · rw [List.length_take]
        rw [List.length_dropLast] at hid
        omega
      · rw [← hgj]
        rw [List.getElem_take]
        rw [List.getElem_take]


/-- C7 (claim): a deferred node is dispatched by `create_workspace` iff
at least one of its non-deferred transitive descendants is dispatched
(non-deferred nodes being always dispatched when resolvable, and the
deferred rule being iterated to stability). -/
theorem C7_deferred (cfg : Config) (fields : List (String × TemplateValue))
    (it : PathItem) (hdef : it.deferred = true) :
    it ∈ dispatched cfg fields ↔
      ∃ d, d.deferred = false ∧ isDescOf cfg d it = true ∧
        d ∈ dispatched cfg fields := by
  rw [mem_dispatched_iff, dispatchSet_eq]
  constructor
  · intro h
    rw [deferStep] at h
    have hcond := (List.mem_filter.mp h).2
    rw [Bool.or_eq_true] at hcond
    cases hcond with
    | inl hc =>
        rw [Bool.not_eq_true', hdef] at hc
        exact Bool.noConfusion hc
    | inr hc =>
        rw [List.any_eq_true] at hc
        obtain ⟨d, hd, hdp⟩ := hc
        rw [Bool.and_eq_true, Bool.not_eq_true'] at hdp
        refine ⟨d, hdp.1, hdp.2, ?_⟩
        rw [mem_dispatched_iff, dispatchSet_eq]
        exact mem_deferStep_of_nondeferred cfg _ d hd hdp.1
  · rintro ⟨d, hdnd, hdesc, hdmem⟩
    rw [mem_dispatched_iff, dispatchSet_eq] at hdmem
    have hd0 := deferStep_subset cfg _ d hdmem
    have hdit : d ∈ cfg.items := List.mem_of_mem_filter hd0
    have hdres : resolvableB cfg fields d = true := (List.mem_filter.mp hd0).2
    have hitres : resolvableB cfg fields it = true :=
      resolvable_ancestor cfg fields d it hdres hdesc
    have hitit : it ∈ cfg.items := by
      obtain ⟨ch, atoms, cs, hch, _, _⟩ :=
        render_of_resolvable cfg fields d hdres
      rw [isDescOf, hch] at hdesc
      have hmem := of_decide_eq_true hdesc
      have hmem2 : it ∈ ch := List.dropLast_subset ch hmem
      cases chainF_mem_items cfg cfg.items.length d ch hch it hmem2 with
      | inl he =>
          rw [he] at hdef
          rw [hdef] at hdnd
          exact Bool.noConfusion hdnd
      | inr hm => exact hm
    rw [deferStep]
    refine List.mem_filter.mpr ⟨List.mem_filter.mpr ⟨hitit, hitres⟩, ?_⟩
    rw [Bool.or_eq_true]
    refine Or.inr (List.any_eq_true.mpr ⟨d, hd0, ?_⟩)
    rw [Bool.and_eq_true, Bool.not_eq_true']
    constructor
    · exact hdnd
    · rw [isDescOf]
      cases hcd : chain cfg d with
      | none =>
          rw [isDescOf, hcd] at hdesc
          exact Bool.noConfusion hdesc
      | some l =>
          rw [isDescOf, hcd] at hdesc
          exact hdesc


/-- Witness for C7: the deferred root is dispatched because its
non-deferred child is. -/
theorem C7_deferred_witness : deferNodeR ∈ dispatched cfgDefer [] :=
  (C7_deferred cfgDefer [] deferNodeR (by decide)).mpr
    ⟨deferNodeC, by decide, by decide, by decide⟩


theorem firstIdx_lt_length {α : Type} [DecidableEq α] (a : α) :
    ∀ l : List α, a ∈ l → firstIdx a l < l.length := by
  intro l
  induction l with
  | nil => intro h; cases h
  | cons x xs ih =>
      intro h
      rw [firstIdx]
      by_cases hxa : x = a
      · rw [if_pos hxa]
        simp
      · rw [if_neg hxa, List.length_cons]
        have : a ∈ xs := by
          cases h with
          | head => exact absurd rfl hxa
          | tail _ h2 => exact h2
        have := ih this
        omega


theorem firstIdx_append_left {α : Type} [DecidableEq α] (a : α) :
    ∀ (l t : List α), a ∈ l → firstIdx a (l ++ t) = firstIdx a l := by
  intro l
  induction l with
  | nil => intro t h; cases h
  | cons x xs ih =>
      intro t h
      rw [List.cons_append, firstIdx, firstIdx]
      by_cases hxa : x = a
      · rw [if_pos hxa, if_pos hxa]
      · rw [if_neg hxa, if_neg hxa]
        have : a ∈ xs := by
          cases h with
          | head => exact absurd rfl hxa
          | tail _ h2 => exact h2
        rw [ih t this]


theorem firstIdx_append_right {α : Type} [DecidableEq α] (a : α) :
    ∀ (l t : List α), a ∉ l → firstIdx a (l ++ t) = l.length + firstIdx a t := by
  intro l
  induction l with
  | nil => intro t _; simp
  | cons x xs ih =>
      intro t h
      rw [List.cons_append, firstIdx]
      have hxa : x ≠ a := fun he => h (he ▸ List.mem_cons_self x xs)
      rw [if_neg hxa, ih t (fun h2 => h (List.mem_cons_of_mem x h2)),
        List.length_cons]
      omega


theorem sublist_firstIdx_lt {α : Type} [DecidableEq α] (a b : α) :
    ∀ (l ls : List α), l.Sublist ls → ls.Nodup → a ∈ l → b ∈ l →
      firstIdx a ls < firstIdx b ls → firstIdx a l < firstIdx b l := by
  intro l ls hsl
  induction hsl with
  | slnil => intro _ ha _ _; cases ha
  | cons x hsl2 ih =>
      intro hnd ha hb hlt
      rw [List.nodup_cons] at hnd
      have hna : a ≠ x := fun he =>
        hnd.1 (he ▸ hsl2.subset ha)
      have hnb : b ≠ x := fun he =>
        hnd.1 (he ▸ hsl2.subset hb)
      rw [firstIdx, if_neg (fun h => hna h.symm),
        firstIdx, if_neg (fun h => hnb h.symm)] at hlt
      exact ih hnd.2 ha hb (by omega)
  | cons₂ x hsl2 ih =>
      intro hnd ha hb hlt
      rw [List.nodup_cons] at hnd
      by_cases hax : x = a
      · rw [firstIdx, if_pos hax]
        rw [firstIdx, if_pos hax] at hlt
        have hbx : ¬ x = b := by
          intro hbx
          rw [firstIdx, if_pos hbx] at hlt
          omega
        rw [firstIdx, if_neg hbx]
        omega
      · have hbx : ¬ x = b := by
          intro hbx
          rw [firstIdx, if_neg hax, firstIdx, if_pos hbx] at hlt
          omega
        rw [firstIdx, if_neg hax, firstIdx, if_neg hbx] at hlt ⊢
        have ha2 := List.mem_of_ne_of_mem (fun h => hax h.symm) ha
        have hb2 := List.mem_of_ne_of_mem (fun h => hbx h.symm) hb
        have := ih hnd.2 ha2 hb2 (by omega)
        omega


theorem exists_min_nat {α : Type} (f : α → Nat) :
    ∀ l : List α, l ≠ [] → ∃ a ∈ l, ∀ b ∈ l, f a ≤ f b := by
  intro l
  induction l with
  | nil => intro h; exact absurd rfl h
  | cons x xs ih =>
      intro _
      by_cases hxs : xs = []
      · subst hxs
        refine ⟨x, List.mem_cons_self x [], ?_⟩
        intro b hb
        cases hb with
        | head => exact le_rfl
        | tail _ h2 => cases h2
      · obtain ⟨a, ha, hmin⟩ := ih hxs
        by_cases hfx : f x ≤ f a
        · refine ⟨x, List.mem_cons_self x xs, ?_⟩
          intro b hb
          cases hb with
          | head => exact le_rfl
          | tail _ h2 => exact le_trans hfx (hmin b h2)
        · refine ⟨a, List.mem_cons_of_mem x ha, ?_⟩
          intro b hb
          cases hb with
          | head => omega
          | tail _ h2 => exact hmin b h2


theorem readyB_congr (rem : List PathItem) (a b : PathItem)
    (h : a.parent = b.parent) : readyB rem a = readyB rem b := by
  rw [readyB, readyB, h]


theorem ready_ne_nil (cfg : Config) (rem : List PathItem)
    (hne : rem ≠ []) (hsub : ∀ x ∈ rem, x ∈ cfg.items)
    (hkeys : (cfg.items.map (·.key)).Nodup)
    (hch : ∀ x ∈ rem, (chain cfg x).isSome = true) :
    rem.filter (readyB rem) ≠ [] := by
  obtain ⟨m, hm, hmin⟩ := exists_min_nat (chainLen cfg) rem hne
  have hready : readyB rem m = true := by
    rw [readyB, Bool.not_eq_true']
    rw [List.any_eq_false]
    intro p2 hp2
    intro hdec
    have hpar : m.parent = some p2.key := of_decide_eq_true hdec
    have hcm := hch m hm
    cases hcmv : chain cfg m with
    | none => rw [hcmv] at hcm; cases hcm
    | some l =>
        have hchm : chain cfg m = some l := hcmv
        rw [chain] at hcmv
        cases hN : cfg.items.length with
        | zero => rw [hN] at hcmv; cases hcmv
        | succ n0 =>
            rw [hN, chainF] at hcmv
            simp only [hpar,
              lookupItem_self cfg hkeys p2 (hsub p2 hp2)] at hcmv
            cases hcp : chainF cfg n0 p2 with
            | none =>
                rw [hcp, Option.map_none'] at hcmv
                exact Option.noConfusion hcmv
            | some lp =>
                rw [hcp, Option.map_some'] at hcmv
                injection hcmv with hcmv
                have hlenm : chainLen cfg m = lp.length + 1 := by
                  simp only [chainLen, hchm]
                  rw [← hcmv, List.length_append, List.length_cons,
                    List.length_nil]
                have hlenp : chainLen cfg p2 = lp.length := by
                  simp only [chainLen, chain, hN,
                    chainF_mono cfg n0 p2 lp hcp]
                have := hmin p2 hp2
                omega
  exact List.ne_nil_of_mem (List.mem_filter.mpr ⟨hm, hready⟩)


theorem filterMap_resolved_items (cfg : Config)
    (fields : List (String × TemplateValue)) :
    ∀ l : List PathItem, (∀ x ∈ l, resolvableB cfg fields x = true) →
      ((l.filterMap fun it =>
        match renderedComps cfg fields it with
        | none => none
        | some rc => some (ResolvedPathItem.mk it ⟨joinSlashChars rc⟩)).map
        (·.item)) = l := by
  intro l
  induction l with
  | nil => intro _; rfl
  | cons x xs ih =>
      intro h
      have hx := h x (List.mem_cons_self x xs)
      rw [resolvableB] at hx
      cases hrc : renderedComps cfg fields x with
      | none => rw [hrc] at hx; cases hx
      | some rc =>
          rw [List.filterMap_cons]
          simp only [hrc]
          rw [List.map_cons]
          rw [ih (fun y hy => h y (List.mem_cons_of_mem x hy))]


theorem dispatched_eq_topoOrder (cfg : Config)
    (fields : List (String × TemplateValue)) :
    dispatched cfg fields = topoOrder (dispatchSet cfg fields) := by
  rw [dispatched, create_workspace]
  exact filterMap_resolved_items cfg fields _ (fun x hx =>
    (dispatchSet_subset cfg fields x ((mem_topoOrder _ _).mp hx)).2)


theorem dispatchSet_sublist (cfg : Config)
    (fields : List (String × TemplateValue)) :
    (dispatchSet cfg fields).Sublist cfg.items := by
  rw [dispatchSet_eq, deferStep]
  exact (List.filter_sublist _).trans (List.filter_sublist _)


theorem dispatchSet_parent_closed (cfg : Config)
    (fields : List (String × TemplateValue))
    (hkeys : (cfg.items.map (·.key)).Nodup) (b : PathItem)
    (hb : b ∈ dispatchSet cfg fields) (a : PathItem) (ha : a ∈ cfg.items)
    (hp : b.parent = some a.key) : a ∈ dispatchSet cfg fields := by
  rw [dispatchSet_eq] at hb ⊢
  have hb0 := deferStep_subset cfg _ b hb
  have hbres : resolvableB cfg fields b = true := (List.mem_filter.mp hb0).2
  obtain ⟨ch, atoms, cs, hch2, _, _⟩ := render_of_resolvable cfg fields b hbres
  have hlk := lookupItem_self cfg hkeys a ha
  have hdesc : isDescOf cfg b a = true := desc_of_parent cfg b a ch hch2 hp hlk
  have hares : resolvableB cfg fields a = true :=
    resolvable_ancestor cfg fields b a hbres hdesc
  have ha0 : a ∈ cfg.items.filter (resolvableB cfg fields) :=
    List.mem_filter.mpr ⟨ha, hares⟩
  by_cases hadef : a.deferred = false
  · exact mem_deferStep_of_nondeferred cfg _ a ha0 hadef
  · rw [deferStep]
    refine List.mem_filter.mpr ⟨ha0, ?_⟩
    rw [Bool.or_eq_true]
    refine Or.inr ?_
    rw [List.any_eq_true]
    by_cases hbdef : b.deferred = false
    · refine ⟨b, hb0, ?_⟩
      rw [Bool.and_eq_true, Bool.not_eq_true']
      exact ⟨hbdef, hdesc⟩
    · rw [Bool.not_eq_false] at hbdef
      rw [deferStep] at hb
      have hcond := (List.mem_filter.mp hb).2
      rw [Bool.or_eq_true] at hcond
      cases hcond with
      | inl hc =>
          rw [Bool.not_eq_true', hbdef] at hc
          exact Bool.noConfusion hc
      | inr hc =>
          rw [List.any_eq_true] at hc
          obtain ⟨d, hd, hdp⟩ := hc
          rw [Bool.and_eq_true, Bool.not_eq_true'] at hdp
          refine ⟨d, hd, ?_⟩
          rw [Bool.and_eq_true, Bool.not_eq_true']
          exact ⟨hdp.1, desc_trans cfg d b a hdp.2 hdesc⟩


theorem topoGo_order (cfg : Config) (S : List PathItem)
    (hkeys : (cfg.items.map (·.key)).Nodup)
    (hSnd : S.Nodup)
    (hSsub : ∀ x ∈ S, x ∈ cfg.items)
    (hSch : ∀ x ∈ S, (chain cfg x).isSome = true) :
    ∀ (fuel : Nat) (acc rem : List PathItem),
      rem.length ≤ fuel →
      (acc ++ rem).Perm S →
      rem.Sublist cfg.items →
      (∀ b ∈ acc, ∀ a ∈ S, b.parent = some a.key →
        a ∈ acc ∧ firstIdx a acc < firstIdx b acc) →
      (∀ a ∈ acc, ∀ b ∈ rem, a.parent = b.parent → False) →
      (∀ a b, a ∈ acc → b ∈ acc → a.parent = b.parent →
        firstIdx a cfg.items < firstIdx b cfg.items →
        firstIdx a acc < firstIdx b acc) →
      (∀ a b, a ∈ S → b ∈ S → b.parent = some a.key →
        firstIdx a (topoGo fuel acc rem) < firstIdx b (topoGo fuel acc rem)) ∧
      (∀ a b, a ∈ S → b ∈ S → a.parent = b.parent →
        firstIdx a cfg.items < firstIdx b cfg.items →
        firstIdx a (topoGo fuel acc rem) < firstIdx b (topoGo fuel acc rem)) := by
  intro fuel
  induction fuel with
  | zero =>
      intro acc rem hlen hperm _ hacc _ hsib
      rw [Nat.le_zero, List.length_eq_zero] at hlen
      subst hlen
      rw [topoGo]
      constructor
      · intro a b haS hbS hpar
        have hb : b ∈ acc := by
          have := (hperm.mem_iff).mpr hbS
          simpa using this
        have h2 := hacc b hb a haS hpar
        rw [List.append_nil]
        exact h2.2
      · intro a b haS hbS hpar hdecl
        have haA : a ∈ acc := by
          have := (hperm.mem_iff).mpr haS
          simpa using this
        have hbA : b ∈ acc := by
          have := (hperm.mem_iff).mpr hbS
          simpa using this
        rw [List.append_nil]
        exact hsib a b haA hbA hpar hdecl
  | succ fuel ih =>
      intro acc rem hlen hperm hremsub hacc hcross hsib
      by_cases hremnil : rem = []
      · subst hremnil
        rw [topoGo, List.filter_nil, if_pos rfl]
        constructor
        · intro a b haS hbS hpar
          have hb : b ∈ acc := by
            have := (hperm.mem_iff).mpr hbS
            simpa using this
          have h2 := hacc b hb a haS hpar
          rw [List.append_nil]
          exact h2.2
        · intro a b haS hbS hpar hdecl
          have haA : a ∈ acc := by
            have := (hperm.mem_iff).mpr haS
            simpa using this
          have hbA : b ∈ acc := by
            have := (hperm.mem_iff).mpr hbS
            simpa using this
          rw [List.append_nil]
          exact hsib a b haA hbA hpar hdecl
      · have hready := ready_ne_nil cfg rem hremnil
          (fun x hx =>
            hSsub x ((hperm.mem_iff).mp (List.mem_append_right acc hx)))
          hkeys
          (fun x hx =>
            hSch x ((hperm.mem_iff).mp (List.mem_append_right acc hx)))
        rw [topoGo, if_neg hready]
        have hndAR : (acc ++ rem).Nodup := (hperm.nodup_iff).mpr hSnd
        have hdisj : ∀ x ∈ rem, x ∉ acc := by
          intro x hx hxa
          exact (List.disjoint_of_nodup_append hndAR) hxa hx
        have hitemsnd : cfg.items.Nodup := List.Nodup.of_map _ hkeys
        have hreadysub : (rem.filter (readyB rem)).Sublist cfg.items :=
          (List.filter_sublist _).trans hremsub
        have hmemAR : ∀ x ∈ S, x ∈ acc ∨ x ∈ rem := by
          intro x hx
          exact List.mem_append.mp ((hperm.mem_iff).mpr hx)
        have hreadyparent : ∀ b ∈ rem.filter (readyB rem), ∀ a ∈ rem,
            b.parent = some a.key → False := by
          intro b hb a ha hpar
          have hrb : readyB rem b = true := (List.mem_filter.mp hb).2
          rw [readyB, Bool.not_eq_true', List.any_eq_false] at hrb
          have := hrb a ha
          rw [hpar] at this
          simp at this
        refine ih (acc ++ rem.filter (readyB rem))
          (rem.filter fun it => ! readyB rem it) ?_ ?_ ?_ ?_ ?_ ?_
        · -- length decreases
          have hp2 := List.filter_append_perm (readyB rem) rem
          have hlen2 := hp2.length_eq
          rw [List.length_append] at hlen2
          have hrne : 1 ≤ (rem.filter (readyB rem)).length := by
            cases hq : rem.filter (readyB rem) with
            | nil => exact absurd hq hready
            | cons u us => rw [List.length_cons]; omega
          omega
        · -- permutation
          refine List.Perm.trans ?_ hperm
          rw [List.append_assoc]
          exact List.Perm.append_left acc
            (List.filter_append_perm (readyB rem) rem)
        · exact (List.filter_sublist _).trans hremsub
        · -- hacc for acc ++ ready
          intro b hbmem a haS hpar
          rcases List.mem_append.mp hbmem with hbacc | hbready
          · have h2 := hacc b hbacc a haS hpar
            refine ⟨List.mem_append_left _ h2.1, ?_⟩
            rw [firstIdx_append_left a acc _ h2.1,
              firstIdx_append_left b acc _ hbacc]
            exact h2.2
          · rcases hmemAR a haS with haacc | harem
            · refine ⟨List.mem_append_left _ haacc, ?_⟩
              rw [firstIdx_append_left a acc _ haacc,
                firstIdx_append_right b acc _
                  (hdisj b (List.mem_of_mem_filter hbready))]
              have := firstIdx_lt_length a acc haacc
              omega
            · exact absurd hpar (fun hp2 =>
                hreadyparent b hbready a harem hp2)
        · -- no sibling pairs across acc' and the new rem
          intro a hamem b hb hpar
          have hbrem : b ∈ rem := List.mem_of_mem_filter hb
          rcases List.mem_append.mp hamem with haacc | haready
          · exact hcross a haacc b hbrem hpar
          · have hra : readyB rem a = true := (List.mem_filter.mp haready).2
            have hrb : (! readyB rem b) = true := (List.mem_filter.mp hb).2
            rw [readyB_congr rem a b hpar] at hra
            rw [hra] at hrb
            exact Bool.noConfusion hrb
        · -- sibling ordering inside acc'
          intro a b hamem hbmem hpar hdecl
          rcases List.mem_append.mp hamem with haacc | haready
          · rcases List.mem_append.mp hbmem with hbacc | hbready
            · rw [firstIdx_append_left a acc _ haacc,
                firstIdx_append_left b acc _ hbacc]
              exact hsib a b haacc hbacc hpar hdecl
            · exact absurd hpar (fun hp2 =>
                hcross a haacc b (List.mem_of_mem_filter hbready) hp2)
          · rcases List.mem_append.mp hbmem with hbacc | hbready
            · exact absurd hpar.symm (fun hp2 =>
                hcross b hbacc a (List.mem_of_mem_filter haready) hp2)
            · rw [firstIdx_append_right a acc _
                  (hdisj a (List.mem_of_mem_filter haready)),
                firstIdx_append_right b acc _
                  (hdisj b (List.mem_of_mem_filter hbready))]
              have := sublist_firstIdx_lt a b (rem.filter (readyB rem))
                cfg.items hreadysub hitemsnd haready hbready hdecl
              omega


/-- C8 (claim): across one `create_workspace` call the callback
invocations — modelled by the dispatch list, which the sequential await
makes the temporal order — are dispatched each node exactly once
(`Nodup`), every parent (and, transitively, every ancestor) strictly
before its descendants, and siblings in declaration order. -/
theorem C8_dispatch_order (cfg : Config)
    (fields : List (String × TemplateValue))
    (hkeys : (cfg.items.map (·.key)).Nodup)
    (hch : ∀ x ∈ cfg.items, (chain cfg x).isSome = true) :
    (dispatched cfg fields).Nodup ∧
    (∀ a b, a ∈ dispatched cfg fields → b ∈ dispatched cfg fields →
      b.parent = some a.key →
      firstIdx a (dispatched cfg fields) <
        firstIdx b (dispatched cfg fields)) ∧
    (∀ a b, a ∈ dispatched cfg fields → b ∈ dispatched cfg fields →
      a.parent = b.parent → firstIdx a cfg.items < firstIdx b cfg.items →
      firstIdx a (dispatched cfg fields) <
        firstIdx b (dispatched cfg fields)) ∧
    (∀ a b, a ∈ dispatched cfg fields → b ∈ dispatched cfg fields →
      isDescOf cfg b a = true →
      firstIdx a (dispatched cfg fields) <
        firstIdx b (dispatched cfg fields)) := by
  have hS_sub := dispatchSet_sublist cfg fields
  have hitemsnd : cfg.items.Nodup := List.Nodup.of_map _ hkeys
  have hSnd : (dispatchSet cfg fields).Nodup := List.Nodup.sublist hS_sub hitemsnd
  have hSsub : ∀ x ∈ dispatchSet cfg fields, x ∈ cfg.items :=
    fun x hx => (dispatchSet_subset cfg fields x hx).1
  have hSch : ∀ x ∈ dispatchSet cfg fields, (chain cfg x).isSome = true :=
    fun x hx => hch x (hSsub x hx)
  have horder := topoGo_order cfg (dispatchSet cfg fields) hkeys hSnd hSsub hSch
    (dispatchSet cfg fields).length [] (dispatchSet cfg fields)
    le_rfl (by rw [List.nil_append]) hS_sub
    (fun b hb => absurd hb (List.not_mem_nil b))
    (fun a ha => absurd ha (List.not_mem_nil a))
    (fun a b ha => absurd ha (List.not_mem_nil a))
  have hDT : dispatched cfg fields =
      topoGo (dispatchSet cfg fields).length [] (dispatchSet cfg fields) := by
    rw [dispatched_eq_topoOrder]
    rfl
  have hparent : ∀ a b, a ∈ dispatchSet cfg fields →
      b ∈ dispatchSet cfg fields → b.parent = some a.key →
      firstIdx a (dispatched cfg fields) <
        firstIdx b (dispatched cfg fields) := by
    intro a b ha hb hpar
    rw [hDT]
    exact horder.1 a b ha hb hpar
  have hanc : ∀ (n : Nat) (a b : PathItem), a ∈ dispatchSet cfg fields →
      b ∈ dispatchSet cfg fields → isDescOf cfg b a = true →
      chainLen cfg b ≤ n →
      firstIdx a (dispatched cfg fields) <
        firstIdx b (dispatched cfg fields) := by
    intro n
    induction n with
    | zero =>
        intro a b haS hbS hdesc hlen
        cases hcb : chain cfg b with
        | none =>
            rw [isDescOf, hcb] at hdesc
            exact Bool.noConfusion hdesc
        | some l =>
            obtain ⟨l2, hl2⟩ := chainF_last cfg cfg.items.length b l hcb
            have hcl : chainLen cfg b = l.length := by
              simp only [chainLen, hcb]
            rw [hl2, List.length_append, List.length_cons,
              List.length_nil] at hcl
            omega
    | succ n ihn =>
        intro a b haS hbS hdesc hlen
        cases hcb : chain cfg b with
        | none =>
            rw [isDescOf, hcb] at hdesc
            exact Bool.noConfusion hdesc
        | some l =>
            rw [isDescOf, hcb] at hdesc
            have hamem := of_decide_eq_true hdesc
            have hchb := hcb
            rw [chain] at hchb
            cases hN : cfg.items.length with
            | zero => rw [hN] at hchb; cases hchb
            | succ n0 =>
                rw [hN, chainF] at hchb
                cases hp : b.parent with
                | none =>
                    simp only [hp] at hchb
                    injection hchb with hchb
                    rw [← hchb] at hamem
                    simp at hamem
                | some p =>
                    simp only [hp] at hchb
                    cases hlk : lookupItem cfg p with
                    | none =>
                        simp only [hlk] at hchb
                        exact Option.noConfusion hchb
                    | some pit =>
                        simp only [hlk] at hchb
                        cases hcp : chainF cfg n0 pit with
                        | none =>
                            rw [hcp, Option.map_none'] at hchb
                            exact Option.noConfusion hchb
                        | some lp =>
                            rw [hcp, Option.map_some'] at hchb
                            injection hchb with hchb
                            have hpitkey : pit.key = p := by
                              have hfind : cfg.items.find?
                                  (fun it => it.key == p) = some pit := hlk
                              have hpa :=
                                @List.find?_some PathItem
                                  (fun it => it.key == p) pit cfg.items hfind
                              exact eq_of_beq hpa
                            have hpitmem : pit ∈ cfg.items :=
                              List.mem_of_find?_eq_some hlk
                            have hpitS : pit ∈ dispatchSet cfg fields :=
                              dispatchSet_parent_closed cfg fields hkeys b hbS
                                pit hpitmem (by rw [hp, hpitkey])
                            have hchpit : chain cfg pit = some lp := by
                              rw [chain, hN]
                              exact chainF_mono cfg n0 pit lp hcp
                            have hpb := hparent pit b hpitS hbS
                              (by rw [hp, hpitkey])
                            rw [← hchb, List.dropLast_concat] at hamem
                            obtain ⟨lp2, hlp2⟩ := chainF_last cfg n0 pit lp hcp
                            rw [hlp2] at hamem
                            rcases List.mem_append.mp hamem with ha2 | ha3
                            · have hdesc2 : isDescOf cfg pit a = true := by
                                rw [isDescOf, hchpit]
                                apply decide_eq_true
                                rw [hlp2, List.dropLast_concat]
                                exact ha2
                              have hlenpit : chainLen cfg pit ≤ n := by
                                have h1 : chainLen cfg b = l.length := by
                                  simp only [chainLen, hcb]
                                have h2 : chainLen cfg pit = lp.length := by
                                  simp only [chainLen, hchpit]
                                rw [← hchb, List.length_append,
                                  List.length_cons, List.length_nil] at h1
                                omega
                              have := ihn a pit haS hpitS hdesc2 hlenpit
                              omega
                            · have haeq : a = pit := by
                                cases ha3 with
                                | head => rfl
                                | tail _ h2 => cases h2
                              rw [haeq]
                              exact hpb
  refine ⟨?_, ?_, ?_, ?_⟩
  · rw [dispatched_eq_topoOrder]
    exact ((topoOrder_perm _).nodup_iff).mpr hSnd
  · intro a b ha hb hpar
    exact hparent a b ((mem_dispatched_iff cfg fields a).mp ha)
      ((mem_dispatched_iff cfg fields b).mp hb) hpar
  · intro a b ha hb hpar hdecl
    rw [hDT]
    exact horder.2 a b ((mem_dispatched_iff cfg fields a).mp ha)
      ((mem_dispatched_iff cfg fields b).mp hb) hpar hdecl
  · intro a b ha hb hdesc
    exact hanc (chainLen cfg b) a b ((mem_dispatched_iff cfg fields a).mp ha)
      ((mem_dispatched_iff cfg fields b).mp hb) hdesc le_rfl


/-- Witness for C8 on the two-node deferred fixture: the parent `"r"` is
dispatched strictly before its child `"c"`. -/
theorem C8_dispatch_order_witness :
    firstIdx deferNodeR (dispatched cfgDefer []) <
      firstIdx deferNodeC (dispatched cfgDefer []) :=
  (C8_dispatch_order cfgDefer [] (by decide) (by decide)).2.1
    deferNodeR deferNodeC (by decide) (by decide) (by decide)


/-- C10 (claim): `create_workspace` completes on the segfault-regression
input — the empty-resolver six-node forest with duplicated sibling
subtrees and a `File` leaf with metadata — dispatching all six nodes in
stable topological order with the expected resolved paths. -/
theorem C10_regression_total :
    (create_workspace cfgRegression regFields).map (·.item.key) =
      ["root", "art_root", "game_root", "art_asset_workspace",
       "game_asset_dir", "art_asset_blend"] ∧
    (create_workspace cfgRegression regFields).map (·.value) =
      ["/tmp/root", "/tmp/root/project_name-art",
       "/tmp/root/project_name-game",
       "/tmp/root/project_name-art/art_assets/asset_type/asset_name",
       "/tmp/root/project_name-game/art_assets/asset_type/asset_name",
       "/tmp/root/project_name-art/art_assets/asset_type/asset_name/asset_name.blend"] := by
  decide


theorem matchF_lit : ∀ (comp : List MItem) (cs : List Char),
    isLitComp comp = true →
    ((matchF comp.length comp cs).isSome = true ↔ cs = litName comp) := by
  intro comp
  induction comp with
  | nil =>
    intro cs _
    cases cs with
    | nil => simp [matchF, litName]
    | cons c cs => simp [matchF, litName]
  | cons x rest ih =>
    intro cs h
    cases x with
    | hole n f => exact absurd h (by simp [isLitComp])
    | chr c =>
      have hr : isLitComp rest = true := h
      cases cs with
      | nil =>
        have he : matchF (MItem.chr c :: rest).length
            (MItem.chr c :: rest) [] = none := rfl
        rw [he]
        simp [litName]
      | cons d ds =>
        by_cases hdc : d = c
        · subst hdc
          have he : matchF (MItem.chr d :: rest).length
              (MItem.chr d :: rest) (d :: ds) = matchF rest.length rest ds := by
            show (if d = d then matchF rest.length rest ds else none) = _
            rw [if_pos rfl]
          rw [he, ih ds hr]
          simp [litName]
        · have he : matchF (MItem.chr c :: rest).length
              (MItem.chr c :: rest) (d :: ds) = none := by
            show (if d = c then matchF rest.length rest ds else none) = none
            rw [if_neg hdc]
          rw [he]
          simp [litName, hdc]


theorem compMatches_lit (comp : List MItem) (s : String)
    (h : isLitComp comp = true) :
    (compMatches comp s = true) ↔ s.data = litName comp :=
  matchF_lit comp s.data h


theorem childF_eq {p q : List String} {c : String}
    (h : childF p q = some c) : q = p ++ [c] := by
  unfold childF at h
  cases hd : q.drop p.length with
  | nil => rw [hd] at h; exact Option.noConfusion h
  | cons c' tl =>
    cases tl with
    | cons y ys => rw [hd] at h; exact Option.noConfusion h
    | nil =>
      rw [hd] at h
      have h' : (if q.take p.length = p then some c' else none) = some c := h
      by_cases ht : q.take p.length = p
      · rw [if_pos ht] at h'
        have hc := Option.some.inj h'
        conv_lhs => rw [← List.take_append_drop p.length q]
        rw [ht, hd, hc]
      · rw [if_neg ht] at h'; exact Option.noConfusion h'


theorem childF_self (p : List String) (c : String) :
    childF p (p ++ [c]) = some c := by
  unfold childF
  rw [List.drop_left, List.take_left]
  simp


theorem childrenFS_mem (fs : List (List String)) (p : List String)
    (c : String) : c ∈ childrenFS fs p ↔ p ++ [c] ∈ fs := by
  unfold childrenFS
  rw [List.mem_filterMap]
  constructor
  · rintro ⟨q, hq, hs⟩
    rwa [childF_eq hs] at hq
  · intro hm
    exact ⟨p ++ [c], hm, childF_self p c⟩


theorem childrenFS_nodup (fs : List (List String)) (p : List String)
    (h : fs.Nodup) : (childrenFS fs p).Nodup := by
  unfold childrenFS
  refine List.Nodup.filterMap ?_ h
  intro q q' c hc hc'
  rw [Option.mem_def] at hc hc'
  rw [childF_eq hc, childF_eq hc']


theorem walkFS_sound (fs : List (List String)) :
    ∀ (comps : List (List MItem)) (p x : List String),
      x ∈ walkFS fs comps p →
      x ∈ fs ∧ ∃ ss, x = p ++ ss ∧ matchesComps comps ss = true := by
  intro comps
  induction comps with
  | nil =>
    intro p x hx
    simp only [walkFS] at hx
    by_cases hp : p ∈ fs
    · rw [if_pos hp] at hx
      obtain rfl := List.mem_singleton.mp hx
      exact ⟨hp, [], (List.append_nil _).symm, rfl⟩
    · rw [if_neg hp] at hx
      exact absurd hx (List.not_mem_nil x)
  | cons comp comps ih =>
    intro p x hx
    simp only [walkFS] at hx
    by_cases hl : isLitComp comp = true
    · rw [if_pos hl] at hx
      obtain ⟨hfs, ss, hxe, hm⟩ := ih (p ++ [⟨litName comp⟩]) x hx
      refine ⟨hfs, (⟨litName comp⟩ : String) :: ss, ?_, ?_⟩
      · rw [hxe, List.append_assoc]; rfl
      · show (compMatches comp ⟨litName comp⟩ && matchesComps comps ss) = true
        rw [hm, (compMatches_lit comp ⟨litName comp⟩ hl).mpr rfl]
        rfl
    · rw [if_neg hl] at hx
      rw [List.mem_flatMap] at hx
      obtain ⟨c, hc, hx⟩ := hx
      rw [List.mem_filter] at hc
      obtain ⟨hmemf, hcmatch⟩ := hc
      obtain ⟨hfs, ss, hxe, hm⟩ := ih (p ++ [c]) x hx
      refine ⟨hfs, c :: ss, ?_, ?_⟩
      · rw [hxe, List.append_assoc]; rfl
      · show (compMatches comp c && matchesComps comps ss) = true
        rw [hm, hcmatch]
        rfl


theorem take_app_one {α : Type} (p : List α) (s : α) (ss : List α) :
    (p ++ s :: ss).take (p.length + 1) = p ++ [s] := by
  induction p with
  | nil => rfl
  | cons a p ih =>
    simp only [List.cons_append, List.length_cons, List.take_succ_cons, ih]


theorem ancClosedB_take {fs : List (List String)}
    (h : ancClosedB fs = true) {q : List String} (hq : q ∈ fs) {k : Nat}
    (hk : k < q.length) : q.take (k + 1) ∈ fs := by
  unfold ancClosedB at h
  rw [List.all_eq_true] at h
  have h2 := h q hq
  rw [List.all_eq_true] at h2
  exact of_decide_eq_true (h2 k (List.mem_range.mpr hk))


theorem walkFS_complete (fs : List (List String))
    (hpc : ancClosedB fs = true) :
    ∀ (comps : List (List MItem)) (p ss : List String),
      p ++ ss ∈ fs → matchesComps comps ss = true →
      p ++ ss ∈ walkFS fs comps p := by
  intro comps
  induction comps with
  | nil =>
    intro p ss hm hmc
    cases ss with
    | nil =>
      rw [List.append_nil] at hm ⊢
      simp only [walkFS]
      rw [if_pos hm]
      exact List.mem_singleton.mpr rfl
    | cons s ss => exact Bool.noConfusion hmc
  | cons comp comps ih =>
    intro p ss hm hmc
    cases ss with
    | nil => exact Bool.noConfusion hmc
    | cons s ss =>
      have hsplit : compMatches comp s = true ∧ matchesComps comps ss = true := by
        have h0 : (compMatches comp s && matchesComps comps ss) = true := hmc
        rw [Bool.and_eq_true] at h0
        exact h0
      have hass : p ++ s :: ss = (p ++ [s]) ++ ss := by
        rw [List.append_assoc]; rfl
      by_cases hl : isLitComp comp = true
      · simp only [walkFS]
        rw [if_pos hl]
        have hd : s.data = litName comp := (compMatches_lit comp s hl).mp hsplit.1
        have hs : s = (⟨litName comp⟩ : String) := congrArg String.mk hd
        rw [← hs, hass]
        exact ih (p ++ [s]) ss (by rw [← hass]; exact hm) hsplit.2
      · simp only [walkFS]
        rw [if_neg hl]
        rw [List.mem_flatMap]
        refine ⟨s, ?_, ?_⟩
        · rw [List.mem_filter]
          refine ⟨(childrenFS_mem fs p s).mpr ?_, hsplit.1⟩
          have hkl : p.length < (p ++ s :: ss).length := by
            rw [List.length_append, List.length_cons]
            omega
          have h3 := ancClosedB_take hpc hm hkl
          rwa [take_app_one] at h3
        · rw [hass]
          exact ih (p ++ [s]) ss (by rw [← hass]; exact hm) hsplit.2


theorem walkFS_nodup (fs : List (List String)) (hnd : fs.Nodup) :
    ∀ (comps : List (List MItem)) (p : List String),
      (walkFS fs comps p).Nodup := by
  intro comps
  induction comps with
  | nil =>
    intro p
    simp only [walkFS]
    by_cases hp : p ∈ fs
    · rw [if_pos hp]; exact List.nodup_singleton p
    · rw [if_neg hp]; exact List.nodup_nil
  | cons comp comps ih =>
    intro p
    simp only [walkFS]
    by_cases hl : isLitComp comp = true
    · rw [if_pos hl]; exact ih _
    · rw [if_neg hl]
      have hsub : ∀ (cs : List String), cs.Nodup →
          (cs.flatMap fun c => walkFS fs comps (p ++ [c])).Nodup := by
        intro cs
        induction cs with
        | nil => intro _; exact List.nodup_nil
        | cons c cs ihc =>
          intro hcn
          obtain ⟨hcns, hcsn⟩ := List.nodup_cons.mp hcn
          rw [List.flatMap_cons]
          refine List.Nodup.append (ih _) (ihc hcsn) ?_
          intro x hx1 hx2
          rw [List.mem_flatMap] at hx2
          obtain ⟨c', hc', hx2⟩ := hx2
          obtain ⟨-, ss, hxe, -⟩ := walkFS_sound fs comps _ x hx1
          obtain ⟨-, ss', hxe', -⟩ := walkFS_sound fs comps _ x hx2
          rw [hxe] at hxe'
          rw [List.append_assoc, List.append_assoc] at hxe'
          have h2 := List.append_cancel_left hxe'
          simp only [List.singleton_append] at h2
          have h3 : c = c' := (List.cons.injEq _ _ _ _ ▸ h2 :
            c = c' ∧ ss = ss').1
          exact hcns (by rw [h3]; exact hc')
      exact hsub _ (List.Nodup.filter _ (childrenFS_nodup fs p hnd))


/-- C6 (counterexample to the claim as stated): the two on-disk paths
`a_c` and `a_b_c` are exactly those generated by formatting the
Cartesian product `{str ∈ {a, a_b}} × {other ∈ {c}}` through the
single node's template `{str}_{other}`.  Under the partial field map
`{str: a}`, `find_paths` returns BOTH paths — yet the generating field
values of `a_b_c` are `{str: a_b, other: c}`, which disagree with the
partial map (`a_b ≠ a`).  Matching is purely textual on the
substituted pattern, so the claim "returns exactly those paths whose
bound field values agree with partial_fields" fails. -/
theorem C6_counterexample :
    get_path cfgFP "p" [("str", .str "a"), ("other", .str "c")] = .ok "a_c" ∧
    get_path cfgFP "p" [("str", .str "a_b"), ("other", .str "c")] =
      .ok "a_b_c" ∧
    find_paths cfgFP "p" [("str", .str "a")] fsFP =
      .ok [["a_c"], ["a_b_c"]] ∧
    agreesWith [("str", .str "a")]
      [("str", .str "a_b"), ("other", .str "c")] = false := by
  decide


/-- C6 (amended): over a duplicate-free, ancestor-closed modelled
filesystem, `find_paths` returns, without duplicates, exactly the
existing paths that match the substituted pattern componentwise — the
template's bound placeholders replaced by formatted literals, unbound
ones by their resolver fragments, split at slashes.  Membership is
purely textual: agreement with the partial fields of the values that
generated a path is not implied (see the counterexample). -/
theorem C6_find_paths (cfg : Config) (key : String)
    (pf : List (String × TemplateValue)) (fs : List (List String))
    (comps : List (List MItem)) (res : List (List String))
    (hp : findPattern cfg key pf = .ok comps)
    (hres : find_paths cfg key pf fs = .ok res)
    (hnd : fs.Nodup) (hpc : ancClosedB fs = true) :
    res.Nodup ∧ ∀ x, x ∈ res ↔ (x ∈ fs ∧ matchesComps comps x = true) := by
  have hres2 : res = walkFS fs comps [] := by
    unfold find_paths at hres
    rw [hp] at hres
    simp only [Except.map] at hres
    exact (Except.ok.inj hres).symm
  subst hres2
  refine ⟨walkFS_nodup fs hnd comps [], ?_⟩
  intro x
  constructor
  · intro hx
    obtain ⟨hfs, ss, hxe, hmc⟩ := walkFS_sound fs comps [] x hx
    rw [List.nil_append] at hxe
    subst hxe
    exact ⟨hfs, hmc⟩
  · rintro ⟨hfs, hmc⟩
    exact walkFS_complete fs hpc comps [] x hfs hmc


/-- C6 witness: the amended characterization applied on the fixture
filesystem at the path `a_b_c`, every hypothesis discharged by
evaluation. -/
theorem C6_find_paths_witness :
    ["a_b_c"] ∈ resFP ↔
      (["a_b_c"] ∈ fsFP ∧ matchesComps compsFP ["a_b_c"] = true) :=
  ((C6_find_paths cfgFP "p" [("str", TemplateValue.str "a")] fsFP compsFP
    resFP (by decide) (by decide) (by decide) (by decide)).2) ["a_b_c"]

end OPR
